import Mathlib

/-!
# btree/palm/action.go

A shallow embedding of the action abstraction (`getAction`, `insertAction`)
and of the two fan-out executors (`executeInParallel`,
`executeInterfacesInParallel`) of the PALM B-tree batch layer.

* Go slices are slice headers (`Slice`) pointing into a memory of backing
  arrays (`Mem`), so that sharing and copying of storage is visible.
* Panics are values of `Panic`; a fallible operation returns `Except Panic`.
* A `*sync.WaitGroup` owned by an action is embedded by its counter.
* The executors are interleaving state machines: one atomic step of one
  goroutine at a time, chosen by a schedule.
-/

namespace Palm

/-! ## Run-time failures -/

/-- Panics the Go run time can raise in this file. -/
inductive Panic where
  | indexOutOfRange
  | negativeWaitGroupCounter
  | nilDereference
  deriving DecidableEq, Repr

/-! ## Slices and their backing storage -/

/-- A memory of backing arrays; the address of an array is its position. -/
abbrev Mem (α : Type) := List (List α)

/-- A Go slice header: backing array, offset into it, and length. -/
structure Slice where
  addr : Nat
  off : Nat
  len : Nat
  deriving DecidableEq, Repr

/-- The nil slice: length zero, no storage of its own. -/
def Slice.nil : Slice := ⟨0, 0, 0⟩

/-- A slice header is well formed in a memory when its window lies inside its
backing array. -/
def Slice.Valid {α : Type} (m : Mem α) (s : Slice) : Prop :=
  s.off + s.len ≤ (m.getD s.addr []).length

instance {α : Type} (m : Mem α) (s : Slice) : Decidable (s.Valid m) := by
  unfold Slice.Valid; infer_instance

/-- The values seen through a slice. -/
def Mem.read {α : Type} (m : Mem α) (s : Slice) : List α :=
  ((m.getD s.addr []).drop s.off).take s.len

/-- Go `make([]T, n)`: a fresh backing array of `n` zero values. -/
def Mem.make {α : Type} (m : Mem α) (n : Nat) (zero : α) : Mem α × Slice :=
  (m ++ [List.replicate n zero], ⟨m.length, 0, n⟩)

/-- Go `s[i] = v` with an `int64` index: panics outside `[0, len(s))`. -/
def Mem.assign {α : Type} (m : Mem α) (s : Slice) (i : Int) (v : α) :
    Except Panic (Mem α) :=
  if 0 ≤ i ∧ i < (s.len : Int) then
    .ok (m.set s.addr ((m.getD s.addr []).set (s.off + i.toNat) v))
  else
    .error .indexOutOfRange

/-- Go `copy(dst, src)`: the first `min(len(dst), len(src))` elements of `src`
are written over the start of `dst`; the source is read before anything is
written. -/
def Mem.copy {α : Type} (m : Mem α) (dst src : Slice) : Mem α :=
  let vals := (m.read src).take (min dst.len src.len)
  let a := m.getD dst.addr []
  m.set dst.addr (a.take dst.off ++ vals ++ a.drop (dst.off + vals.length))

/-! ## sync.WaitGroup -/

/-- The counter of a `sync.WaitGroup`. -/
structure WaitGroup where
  counter : Int
  deriving DecidableEq, Repr

/-- The result of `new(sync.WaitGroup)`. -/
def WaitGroup.new : WaitGroup := ⟨0⟩

/-- The call `wg.Add(delta)`: panics when the counter would become negative. -/
def WaitGroup.Add (wg : WaitGroup) (delta : Int) : Except Panic WaitGroup :=
  if wg.counter + delta < 0 then .error .negativeWaitGroupCounter
  else .ok ⟨wg.counter + delta⟩

/-- The call `wg.Done()`, which is `wg.Add(-1)`. -/
def WaitGroup.Done (wg : WaitGroup) : Except Panic WaitGroup :=
  wg.Add (-1)

/-- Whether `wg.Wait()` may return: the counter is zero. -/
def WaitGroup.released (wg : WaitGroup) : Bool :=
  decide (wg.counter = 0)

/-! ## Actions -/

/-- The operation kinds. -/
inductive operation where
  | get
  | add
  deriving DecidableEq, Repr

/-- The storage the actions live in: backing arrays of `Keys` slices and of
`[]*node` slices.  A `*node` is `none` (nil) or `some` node reference. -/
structure Heap (κ ν : Type) where
  keys : Mem κ
  nodes : Mem (Option ν)

/-- The struct `getAction`. -/
structure getAction where
  result : Slice
  completer : WaitGroup
  deriving DecidableEq, Repr

/-- The struct `insertAction`. -/
structure insertAction where
  result : Slice
  completer : WaitGroup
  ns : Slice
  deriving DecidableEq, Repr

section Actions

variable {κ ν : Type}

/-- The method `(*getAction).complete`. -/
def getAction.complete (ga : getAction) : Except Panic getAction :=
  match ga.completer.Done with
  | .ok wg => .ok { ga with completer := wg }
  | .error e => .error e

/-- The method `(*getAction).operation`. -/
def getAction.operation (_ga : getAction) : operation :=
  operation.get

/-- The method `(*getAction).keys`. -/
def getAction.keys (ga : getAction) : Slice :=
  ga.result

/-- The method `(*getAction).addNode`: returns at once. -/
def getAction.addNode (h : Heap κ ν) (ga : getAction) (_i : Int) (_n : Option ν) :
    Except Panic (Heap κ ν × getAction) :=
  .ok (h, ga)

/-- The method `(*getAction).nodes`: returns nil. -/
def getAction.nodes (_ga : getAction) : Slice :=
  Slice.nil

/-- The constructor `newGetAction`; `default` is the zero value of `Key`. -/
def newGetAction [Inhabited κ] (h : Heap κ ν) (keys : Slice) :
    Except Panic (Heap κ ν × getAction) :=
  let (m1, result) := h.keys.make keys.len default
  let m2 := m1.copy result keys
  match WaitGroup.new.Add 1 with
  | .ok wg => .ok ({ h with keys := m2 }, { result := result, completer := wg })
  | .error e => .error e

/-- The method `(*insertAction).complete`. -/
def insertAction.complete (ia : insertAction) : Except Panic insertAction :=
  match ia.completer.Done with
  | .ok wg => .ok { ia with completer := wg }
  | .error e => .error e

/-- The method `(*insertAction).operation`. -/
def insertAction.operation (_ia : insertAction) : operation :=
  operation.add

/-- The method `(*insertAction).keys`. -/
def insertAction.keys (ia : insertAction) : Slice :=
  ia.result

/-- The method `(*insertAction).addNode`: `ia.ns[i] = n`. -/
def insertAction.addNode (h : Heap κ ν) (ia : insertAction) (i : Int) (n : Option ν) :
    Except Panic (Heap κ ν × insertAction) :=
  match h.nodes.assign ia.ns i n with
  | .ok m => .ok ({ h with nodes := m }, ia)
  | .error e => .error e

/-- The method `(*insertAction).nodes`. -/
def insertAction.nodes (ia : insertAction) : Slice :=
  ia.ns

/-- The constructor `newInsertAction`. -/
def newInsertAction [Inhabited κ] (h : Heap κ ν) (keys : Slice) :
    Except Panic (Heap κ ν × insertAction) :=
  let (m1, result) := h.keys.make keys.len default
  let m2 := m1.copy result keys
  let (n1, ns) := h.nodes.make keys.len none
  match WaitGroup.new.Add 1 with
  | .ok wg =>
    .ok ({ keys := m2, nodes := n1 }, { result := result, completer := wg, ns := ns })
  | .error e => .error e

/-- The states an insertAction built by `newInsertAction(K)` in heap `h0` goes
through under successful `addNode` and `complete` calls. -/
inductive InsertReach [Inhabited κ] (h0 : Heap κ ν) (K : Slice) :
    Heap κ ν → insertAction → Prop where
  | built {h : Heap κ ν} {ia : insertAction} :
    newInsertAction h0 K = .ok (h, ia) → InsertReach h0 K h ia
  | addNode {h h1 : Heap κ ν} {ia ia1 : insertAction} (i : Int) (n : Option ν) :
    InsertReach h0 K h ia → ia.addNode h i n = .ok (h1, ia1) → InsertReach h0 K h1 ia1
  | complete {h : Heap κ ν} {ia ia1 : insertAction} :
    InsertReach h0 K h ia → ia.complete = .ok ia1 → InsertReach h0 K h ia1

end Actions

/-! ## Machine integers -/

/-- Go conversion to `uint64`: the value modulo `2^64`. -/
def uint64 (x : Int) : Nat :=
  (x % 2 ^ 64).toNat

/-- Go conversion to `int64` (and to `int` on a 64-bit platform): the value
wrapped into `[-2^63, 2^63)`. -/
def int64 (x : Int) : Int :=
  (2 ^ 63 + x) % 2 ^ 64 - 2 ^ 63

/-- The function `minUint64(choices ...uint64)`: `choices[0]` panics on an empty
argument list; the loop runs over the indices `1 .. len(choices) - 1`. -/
def minUint64 : List Nat → Except Panic Nat
  | [] => .error .indexOutOfRange
  | c :: cs => .ok (cs.foldl (fun min c => if c < min then c else min) c)

/-- Go `l[i]` with an `int64` index: panics outside `[0, len(l))`. -/
def indexInt {ι : Type} (l : List ι) (i : Int) : Except Panic ι :=
  if 0 ≤ i ∧ i < (l.length : Int) then
    match l[i.toNat]? with
    | some x => .ok x
    | none => .error .indexOutOfRange
  else
    .error .indexOutOfRange

/-- Where the calling goroutine of an executor stands. -/
inductive MainPc where
  | wait
  | dispose
  | returned
  deriving DecidableEq, Repr

/-! ## The slice executor `executeInterfacesInParallel` -/

/-- Where a worker goroutine of `executeInterfacesInParallel` stands:
about to run `atomic.AddInt64(&done, 1)`; holding a claimed index `i` that
passed the bounds test, about to run `fn(ifs[i])`; returning, with the
deferred `wg.Done()` still to run; or gone. -/
inductive SlicePc where
  | claim
  | call (i : Int)
  | finish
  | exited
  deriving DecidableEq, Repr

/-- The shared state of one call of `executeInterfacesInParallel`: the slice
`ifs`, the claim index `done`, the wait group, the program counters of the
worker goroutines and of the caller, the calls of `fn` made so far (index and
item, oldest first) and the panic that stopped the program, if any. -/
structure SliceExec (ι : Type) where
  ifs : List ι
  done : Int
  wg : WaitGroup
  workers : List SlicePc
  main : MainPc
  calls : List (Int × ι)
  panic : Option Panic

/-- The state right after the `for` loop has started `numCPU` goroutines: the
loop itself touches no shared variable, so a goroutine not yet started is a
goroutine that has not yet taken a step. -/
def SliceExec.spawn {ι : Type} (ifs : List ι) (done : Int) (wg : WaitGroup)
    (numCPU : Nat) : SliceExec ι :=
  { ifs := ifs, done := done, wg := wg, workers := List.replicate numCPU SlicePc.claim,
    main := MainPc.wait, calls := [], panic := none }

/-- A call that has come back (or crashed) before starting any goroutine. -/
def SliceExec.stopped {ι : Type} (ifs : List ι) (panic : Option Panic) : SliceExec ι :=
  { ifs := ifs, done := -1, wg := ⟨0⟩, workers := [], main := MainPc.returned,
    calls := [], panic := panic }

/-- The function `executeInterfacesInParallel(ifs, fn)` up to `wg.Wait()`;
`NumCPU` is what `runtime.NumCPU()` reports.  The effect of `fn` is the
record of its calls. -/
def executeInterfacesInParallel {ι : Type} (ifs : List ι) (NumCPU : Int) : SliceExec ι :=
  if ifs.length = 0 then
    SliceExec.stopped ifs none
  else
    let done := int64 (-1)
    let numCPU := uint64 NumCPU
    let numCPU := if numCPU > 1 then numCPU - 1 else numCPU
    match minUint64 [numCPU, uint64 ifs.length] with
    | .error e => SliceExec.stopped ifs (some e)
    | .ok numCPU =>
      match (⟨0⟩ : WaitGroup).Add (int64 numCPU) with
      | .error e => SliceExec.stopped ifs (some e)
      | .ok wg => SliceExec.spawn ifs done wg numCPU

/-- Who takes the next atomic step: worker goroutine `w`, or the caller. -/
inductive SliceLabel where
  | worker (w : Nat)
  | main
  deriving DecidableEq, Repr

/-- One atomic step of `executeInterfacesInParallel`; `none` when the chosen
goroutine cannot move (it does not exist, is gone, is blocked in `wg.Wait()`,
or the program has panicked). -/
def SliceExec.step {ι : Type} (s : SliceExec ι) : SliceLabel → Option (SliceExec ι)
  | .worker w =>
    if s.panic.isSome then none
    else
      match s.workers[w]? with
      | none => none
      | some .claim =>
        let i := int64 (s.done + 1)
        if i ≥ int64 s.ifs.length then
          some { s with done := i, workers := s.workers.set w .finish }
        else
          some { s with done := i, workers := s.workers.set w (.call i) }
      | some (.call i) =>
        match indexInt s.ifs i with
        | .ok x => some { s with calls := s.calls ++ [(i, x)], workers := s.workers.set w .claim }
        | .error e => some { s with panic := some e }
      | some .finish =>
        match s.wg.Done with
        | .ok wg => some { s with wg := wg, workers := s.workers.set w .exited }
        | .error e => some { s with panic := some e }
      | some .exited => none
  | .main =>
    if s.panic.isSome then none
    else
      match s.main with
      | .wait => if s.wg.released then some { s with main := .returned } else none
      | .dispose => none
      | .returned => none

/-- Running a schedule: `none` when some step of it cannot be taken. -/
def SliceExec.run {ι : Type} (s : SliceExec ι) : List SliceLabel → Option (SliceExec ι)
  | [] => some s
  | l :: ls =>
    match s.step l with
    | some t => t.run ls
    | none => none

/-- The worker is gone. -/
def SlicePc.isExited : SlicePc → Bool
  | .exited => true
  | _ => false

/-- The worker has made its last claim: it is returning or gone. -/
def SlicePc.stopped : SlicePc → Bool
  | .finish => true
  | .exited => true
  | _ => false

/-- Every worker goroutine is gone. -/
def SliceExec.allExited {ι : Type} (s : SliceExec ι) : Bool :=
  s.workers.all SlicePc.isExited

/-- The indices `fn` has been called at, oldest first. -/
def SliceExec.indices {ι : Type} (s : SliceExec ι) : List Int :=
  s.calls.map Prod.fst

/-! ## The bounded-queue executor `executeInParallel` -/

/-- Modelled from the spec: the bounded concurrent queue `queue.RingBuffer`,
whose code is not in this file.  It holds its pending items, oldest first, and
a flag saying it has been disposed. -/
structure RingBuffer (ι : Type) where
  items : List ι
  disposed : Bool
  deriving DecidableEq, Repr

/-- Modelled from the spec: `q.Len()`, the pending item count. -/
def RingBuffer.Len {ι : Type} (q : RingBuffer ι) : Nat :=
  q.items.length

/-- Modelled from the spec: `q.Dispose()` closes the queue. -/
def RingBuffer.Dispose {ι : Type} (q : RingBuffer ι) : RingBuffer ι :=
  { q with disposed := true }

/-- Modelled from the spec: `q.Get()`, one pull.  On a disposed queue the pull
fails (`some (none, q)`); otherwise the oldest pending item is taken
(`some (some x, rest)`); on an open queue with nothing pending the caller
waits (`none`). -/
def RingBuffer.Get {ι : Type} (q : RingBuffer ι) : Option (Option ι × RingBuffer ι) :=
  if q.disposed then some (none, q)
  else
    match q.items with
    | [] => none
    | x :: rest => some (some x, { q with items := rest })

/-- Where a worker goroutine of `executeInParallel` stands: about to run
`q.Get()`; holding a pulled item, about to run `fn(ifc)`; about to run
`atomic.AddUint64(&done, 1) == todo`; about to run `wg.Done()`; or gone. -/
inductive QueuePc (ι : Type) where
  | get
  | call (ifc : ι)
  | count
  | signal
  | exited
  deriving DecidableEq, Repr

/-- The shared state of one call of `executeInParallel`. -/
structure QueueExec (ι : Type) where
  q : Option (RingBuffer ι)
  todo : Nat
  done : Nat
  wg : WaitGroup
  workers : List (QueuePc ι)
  main : MainPc
  calls : List ι
  panic : Option Panic

/-- The state right after the `for` loop has started `goRoutines` goroutines. -/
def QueueExec.spawn {ι : Type} (q : RingBuffer ι) (todo done : Nat) (wg : WaitGroup)
    (goRoutines : Nat) : QueueExec ι :=
  { q := some q, todo := todo, done := done, wg := wg,
    workers := List.replicate goRoutines QueuePc.get,
    main := MainPc.wait, calls := [], panic := none }

/-- A call that has come back (or crashed) before starting any goroutine. -/
def QueueExec.stopped {ι : Type} (q : Option (RingBuffer ι)) (panic : Option Panic) :
    QueueExec ι :=
  { q := q, todo := 0, done := 0, wg := ⟨0⟩, workers := [], main := MainPc.returned,
    calls := [], panic := panic }

/-- The function `executeInParallel(q, fn)` up to `wg.Wait()`; `NumCPU` is what
`runtime.NumCPU()` reports.  The effect of `fn` is the record of its calls. -/
def executeInParallel {ι : Type} (q : Option (RingBuffer ι)) (NumCPU : Int) : QueueExec ι :=
  match q with
  | none => QueueExec.stopped none none
  | some rb =>
    let todo := rb.Len
    let done := 0
    if todo = 0 then
      QueueExec.stopped (some rb) none
    else
      match minUint64 [todo, uint64 (NumCPU - 1)] with
      | .error e => QueueExec.stopped (some rb) (some e)
      | .ok goRoutines =>
        match (⟨0⟩ : WaitGroup).Add 1 with
        | .error e => QueueExec.stopped (some rb) (some e)
        | .ok wg => QueueExec.spawn rb todo done wg goRoutines

/-- Who takes the next atomic step: worker goroutine `w`; worker `w` whose
`q.Get()` comes back with an error for a reason of the queue's own; the
caller; or another actor disposing the queue. -/
inductive QueueLabel where
  | worker (w : Nat)
  | getError (w : Nat)
  | main
  | otherDispose
  deriving DecidableEq, Repr

/-- The steps of the executor itself on a queue nobody else touches. -/
def QueueLabel.own : QueueLabel → Bool
  | .worker _ => true
  | .main => true
  | .getError _ => false
  | .otherDispose => false

/-- One atomic step of `executeInParallel`; `none` when the chosen step cannot
be taken. -/
def QueueExec.step {ι : Type} (s : QueueExec ι) : QueueLabel → Option (QueueExec ι)
  | .worker w =>
    if s.panic.isSome then none
    else
      match s.workers[w]? with
      | none => none
      | some .get =>
        match s.q with
        | none => some { s with panic := some .nilDereference }
        | some rb =>
          match rb.Get with
          | none => none
          | some (none, rb1) => some { s with q := some rb1, workers := s.workers.set w .exited }
          | some (some ifc, rb1) =>
            some { s with q := some rb1, workers := s.workers.set w (.call ifc) }
      | some (.call ifc) =>
        some { s with calls := s.calls ++ [ifc], workers := s.workers.set w .count }
      | some .count =>
        let d := (s.done + 1) % 2 ^ 64
        if d = s.todo then
          some { s with done := d, workers := s.workers.set w .signal }
        else
          some { s with done := d, workers := s.workers.set w .get }
      | some .signal =>
        match s.wg.Done with
        | .ok wg => some { s with wg := wg, workers := s.workers.set w .exited }
        | .error e => some { s with panic := some e }
      | some .exited => none
  | .getError w =>
    if s.panic.isSome then none
    else
      match s.workers[w]? with
      | some .get => some { s with workers := s.workers.set w .exited }
      | _ => none
  | .main =>
    if s.panic.isSome then none
    else
      match s.main with
      | .wait => if s.wg.released then some { s with main := .dispose } else none
      | .dispose =>
        match s.q with
        | none => some { s with panic := some .nilDereference }
        | some rb => some { s with q := some rb.Dispose, main := .returned }
      | .returned => none
  | .otherDispose =>
    match s.q with
    | none => none
    | some rb => some { s with q := some rb.Dispose }

/-- Running a schedule: `none` when some step of it cannot be taken. -/
def QueueExec.run {ι : Type} (s : QueueExec ι) : List QueueLabel → Option (QueueExec ι)
  | [] => some s
  | l :: ls =>
    match s.step l with
    | some t => t.run ls
    | none => none

/-- The worker is gone. -/
def QueuePc.isExited {ι : Type} : QueuePc ι → Bool
  | .exited => true
  | _ => false

/-- The worker has run `fn` and not yet counted it. -/
def QueuePc.isCount {ι : Type} : QueuePc ι → Bool
  | .count => true
  | _ => false

/-- The worker has counted the last item and not yet signalled. -/
def QueuePc.isSignal {ι : Type} : QueuePc ι → Bool
  | .signal => true
  | _ => false

/-- The worker can move whatever the queue holds. -/
def QueuePc.busy {ι : Type} : QueuePc ι → Bool
  | .call _ => true
  | .count => true
  | .signal => true
  | _ => false

/-- The item a worker has pulled and not yet passed to `fn`. -/
def QueuePc.item {ι : Type} : QueuePc ι → Option ι
  | .call ifc => some ifc
  | _ => none

/-- Every worker goroutine is gone. -/
def QueueExec.allExited {ι : Type} (s : QueueExec ι) : Bool :=
  s.workers.all QueuePc.isExited

/-- The items pending in the queue of the call. -/
def QueueExec.pending {ι : Type} (s : QueueExec ι) : List ι :=
  match s.q with
  | some rb => rb.items
  | none => []

/-- Whether the queue of the call has been disposed. -/
def QueueExec.disposed {ι : Type} (s : QueueExec ι) : Bool :=
  match s.q with
  | some rb => rb.disposed
  | none => false

/-! ## Invariants and measures of the executors -/

/-- Steps a worker of the slice executor still has to take at least, used to
bound the length of schedules. -/
def SlicePc.weight : SlicePc → Nat
  | .claim => 1
  | .call _ => 2
  | .finish => 1
  | .exited => 0

/-- A bound on the number of steps the slice executor can still take. -/
def SliceExec.measure {ι : Type} (s : SliceExec ι) : Nat :=
  3 * ((s.ifs.length : Int) + s.workers.length - (s.done + 1)).toNat +
    (s.workers.map SlicePc.weight).sum + (if s.main = MainPc.wait then 1 else 0)

/-- What holds in every state the slice executor reaches from
`SliceExec.spawn ifs (-1) ⟨W⟩ W`. -/
structure SliceInv {ι : Type} (ifs : List ι) (W : Nat) (s : SliceExec ι) : Prop where
  ifs_eq : s.ifs = ifs
  workers_len : s.workers.length = W
  no_panic : s.panic = none
  done_lb : -1 ≤ s.done
  done_ub : s.done + 1 ≤ (ifs.length : Int) + (s.workers.countP SlicePc.stopped : Nat)
  stopped_done : 0 < s.workers.countP SlicePc.stopped → (ifs.length : Int) ≤ s.done
  claimed : ∀ i : Int, s.indices.count i + s.workers.count (SlicePc.call i) =
    if 0 ≤ i ∧ i ≤ s.done ∧ i < (ifs.length : Int) then 1 else 0
  items : ∀ c ∈ s.calls, indexInt ifs c.1 = .ok c.2
  wg_eq : s.wg.counter + (s.workers.countP SlicePc.isExited : Nat) = (W : Int)
  returned : s.main = MainPc.returned → s.allExited = true
  main_ne : s.main ≠ MainPc.dispose

/-- Steps a worker of the queue executor still has to take before it pulls
again, used to bound the length of schedules. -/
def QueuePc.weight {ι : Type} : QueuePc ι → Nat
  | .get => 1
  | .call _ => 4
  | .count => 3
  | .signal => 2
  | .exited => 0

/-- Steps the caller still has to take. -/
def MainPc.weight : MainPc → Nat
  | .wait => 2
  | .dispose => 1
  | .returned => 0

/-- A bound on the number of steps the queue executor can still take on its
own. -/
def QueueExec.measure {ι : Type} (s : QueueExec ι) : Nat :=
  5 * s.pending.length + (s.workers.map QueuePc.weight).sum + s.main.weight

/-- What holds in every state the queue executor reaches from
`QueueExec.spawn ⟨items, d⟩ items.length 0 ⟨1⟩ W`, whatever other actors do
to the queue apart from adding items. -/
structure QueueInv {ι : Type} (items : List ι) (s : QueueExec ι) : Prop where
  todo_eq : s.todo = items.length
  no_panic : s.panic = none
  q_some : s.q.isSome = true
  accounted : (s.calls ++ (s.workers.filterMap QueuePc.item ++ s.pending)).Perm items
  done_eq : s.done + s.workers.countP QueuePc.isCount = s.calls.length
  wg_lb : 0 ≤ s.wg.counter
  wg_ub : s.wg.counter ≤ 1
  signal : ((s.workers.countP QueuePc.isSignal : Nat) : Int) + (1 - s.wg.counter) =
    if s.done = s.todo then 1 else 0
  main_wg : s.main ≠ MainPc.wait → s.wg.counter = 0
  returned : s.main = MainPc.returned → s.disposed = true

/-- What holds in addition when only the executor itself touches the queue,
which was open at the start. -/
structure QueueOwnInv {ι : Type} (W : Nat) (s : QueueExec ι) : Prop where
  workers_len : s.workers.length = W
  open_until : s.main ≠ MainPc.returned → s.disposed = false
  exits : s.disposed = false →
    ((s.workers.countP QueuePc.isExited : Nat) : Int) + s.wg.counter = 1

/-- Whether the step `l` taken from `s` is an `atomic.AddUint64(&done, 1)` whose
result equals `todo`. -/
def QueueExec.hitsTodo {ι : Type} (s : QueueExec ι) : QueueLabel → Bool
  | .worker w =>
    match s.workers[w]? with
    | some .count => decide ((s.done + 1) % 2 ^ 64 = s.todo)
    | _ => false
  | _ => false

/-- Whether the step `l` taken from `s` is a call of `wg.Done()`. -/
def QueueExec.callsDone {ι : Type} (s : QueueExec ι) : QueueLabel → Bool
  | .worker w =>
    match s.workers[w]? with
    | some .signal => true
    | _ => false
  | _ => false

/-- How many steps of a schedule, run from `s`, are of the kind `f`. -/
def QueueExec.countAlong {ι : Type} (f : QueueExec ι → QueueLabel → Bool)
    (s : QueueExec ι) : List QueueLabel → Nat
  | [] => 0
  | l :: ls =>
    match s.step l with
    | some t => (if f s l then 1 else 0) + QueueExec.countAlong f t ls
    | none => 0

/-- What holds of the completion count and the wait group in every state the
queue executor reaches from `QueueExec.spawn q todo 0 ⟨1⟩ W` with `todo ≥ 1`
and `M` items in the queue, whether `M` equals `todo` or not. -/
structure LatchInv {ι : Type} (M : Nat) (s : QueueExec ι) : Prop where
  no_panic : s.panic = none
  q_some : s.q.isSome = true
  todo_pos : 1 ≤ s.todo
  pulled : s.calls.length + (s.workers.filterMap QueuePc.item).length + s.pending.length = M
  done_eq : s.done + s.workers.countP QueuePc.isCount = s.calls.length
  wg_lb : 0 ≤ s.wg.counter
  wg_ub : s.wg.counter ≤ 1
  signal : ((s.workers.countP QueuePc.isSignal : Nat) : Int) + (1 - s.wg.counter) =
    if s.todo ≤ s.done then 1 else 0

/-- What one step from `s` to `t` keeps: the invariant, and the account of the
two kinds of steps counted against the completion count and the wait group. -/
def LatchStep {ι : Type} (M : Nat) (s t : QueueExec ι) (l : QueueLabel) : Prop :=
  LatchInv M t ∧
  ((if s.hitsTodo l then 1 else 0) + (if s.todo ≤ s.done then 1 else 0) =
    if t.todo ≤ t.done then 1 else 0) ∧
  ((if s.callsDone l then (1 : Int) else 0) + (1 - s.wg.counter) = 1 - t.wg.counter)

/-! ## Theorems: lists -/

section ListLemmas

variable {α : Type}

theorem List.countP_set_of_getElem? (p : α → Bool) (l : List α) (w : Nat) (a b : α)
    (h : l[w]? = some a) :
    (l.set w b).countP p + (if p a then 1 else 0) = l.countP p + (if p b then 1 else 0) := by
  induction l generalizing w with
  | nil => simp at h
  | cons x xs ih =>
    cases w with
    | zero =>
      simp only [List.getElem?_cons_zero, Option.some.injEq] at h
      subst h
      simp only [List.set_cons_zero, List.countP_cons]
      omega
    | succ w =>
      simp only [List.getElem?_cons_succ] at h
      have := ih w h
      simp only [List.set_cons_succ, List.countP_cons]
      omega

theorem List.count_set_of_getElem? [DecidableEq α] (l : List α) (w : Nat) (a b c : α)
    (h : l[w]? = some a) :
    (l.set w b).count c + (if a = c then 1 else 0) = l.count c + (if b = c then 1 else 0) := by
  have := List.countP_set_of_getElem? (fun x => x == c) l w a b h
  simpa [List.count] using this

theorem List.sum_map_set_of_getElem? (f : α → Nat) (l : List α) (w : Nat) (a b : α)
    (h : l[w]? = some a) :
    ((l.set w b).map f).sum + f a = (l.map f).sum + f b := by
  induction l generalizing w with
  | nil => simp at h
  | cons x xs ih =>
    cases w with
    | zero =>
      simp only [List.getElem?_cons_zero, Option.some.injEq] at h
      subst h
      simp only [List.set_cons_zero, List.map_cons, List.sum_cons]
      omega
    | succ w =>
      simp only [List.getElem?_cons_succ] at h
      have := ih w h
      simp only [List.set_cons_succ, List.map_cons, List.sum_cons]
      omega

theorem List.countP_lt_length_of_getElem? (p : α → Bool) (l : List α) (w : Nat) (a : α)
    (h : l[w]? = some a) (ha : p a = false) : l.countP p < l.length := by
  have h1 := List.countP_set_of_getElem? p l w a a h
  have hlt : w < l.length := by
    by_contra hge
    rw [List.getElem?_eq_none (Nat.le_of_not_lt hge)] at h
    exact Option.noConfusion h
  have hmem : a ∈ l := List.getElem?_mem h
  by_contra hge
  have heq : l.countP p = l.length :=
    Nat.le_antisymm (List.countP_le_length p) (Nat.le_of_not_lt hge)
  have := (List.countP_eq_length.mp heq) a hmem
  rw [ha] at this
  exact Bool.noConfusion this

theorem List.getElem?_lt_length (l : List α) (w : Nat) (a : α) (h : l[w]? = some a) :
    w < l.length := by
  by_contra hge
  rw [List.getElem?_eq_none (Nat.le_of_not_lt hge)] at h
  exact Option.noConfusion h

end ListLemmas

/-! ## Theorems: slices and memory -/

section MemLemmas

variable {α : Type}

theorem Mem.getD_set_self (m : Mem α) (a : Nat) (x : List α) (h : a < m.length) :
    (m.set a x).getD a [] = x := by
  simp [List.getD_eq_getElem?_getD, List.getElem?_set, h]

theorem Mem.getD_set_ne (m : Mem α) (a b : Nat) (x : List α) (h : a ≠ b) :
    (m.set a x).getD b [] = m.getD b [] := by
  simp [List.getD_eq_getElem?_getD, List.getElem?_set, h]

theorem Mem.lt_length_of_getD_ne_nil (m : Mem α) (a : Nat) (h : m.getD a [] ≠ []) :
    a < m.length := by
  by_contra hlt
  apply h
  simp [List.getD_eq_getElem?_getD, List.getElem?_eq_none (Nat.le_of_not_lt hlt)]

theorem Slice.Valid.addr_lt {m : Mem α} {s : Slice} (hv : s.Valid m) (hpos : 0 < s.len) :
    s.addr < m.length := by
  apply Mem.lt_length_of_getD_ne_nil
  intro hnil
  unfold Slice.Valid at hv
  rw [hnil] at hv
  simp at hv
  omega

theorem Mem.length_read (m : Mem α) (s : Slice) (hv : s.Valid m) :
    (m.read s).length = s.len := by
  unfold Slice.Valid at hv
  simp only [Mem.read, List.length_take, List.length_drop]
  omega

theorem List.window_set (a : List α) (off k len : Nat) (v : α) (hk : k < len) :
    ((a.set (off + k) v).drop off).take len = ((a.drop off).take len).set k v := by
  apply List.ext_getElem?
  intro j
  simp [List.getElem?_take, List.getElem?_set, List.getElem?_drop]
  split_ifs <;> simp_all <;> omega

/-- Reading a slice after an in-range assignment through the same slice. -/
theorem Mem.read_assign_self (m m' : Mem α) (s : Slice) (i : Int) (v : α)
    (hv : s.Valid m) (h : m.assign s i v = .ok m') :
    0 ≤ i ∧ i < (s.len : Int) ∧ m'.read s = (m.read s).set i.toNat v := by
  unfold Mem.assign at h
  split_ifs at h with hi
  obtain ⟨h0, h1⟩ := hi
  refine ⟨h0, h1, ?_⟩
  have hm : m' = m.set s.addr ((m.getD s.addr []).set (s.off + i.toNat) v) := by
    injection h with h; exact h.symm
  have hlt : s.addr < m.length := hv.addr_lt (by omega)
  subst hm
  unfold Mem.read
  rw [Mem.getD_set_self _ _ _ hlt]
  exact List.window_set _ _ _ _ _ (by omega)

/-- An assignment through one slice does not touch another backing array. -/
theorem Mem.read_assign_other (m m' : Mem α) (s t : Slice) (i : Int) (v : α)
    (hne : s.addr ≠ t.addr) (h : m.assign s i v = .ok m') :
    m'.read t = m.read t := by
  unfold Mem.assign at h
  split_ifs at h with hi
  have hm : m' = m.set s.addr ((m.getD s.addr []).set (s.off + i.toNat) v) := by
    injection h with h; exact h.symm
  subst hm
  unfold Mem.read
  rw [Mem.getD_set_ne _ _ _ _ hne]

theorem Mem.assign_ok (m : Mem α) (s : Slice) (i : Int) (v : α)
    (h0 : 0 ≤ i) (h1 : i < (s.len : Int)) :
    m.assign s i v = .ok (m.set s.addr ((m.getD s.addr []).set (s.off + i.toNat) v)) := by
  simp [Mem.assign, h0, h1]

theorem Mem.read_append_of_valid (m : Mem α) (x : List α) (s : Slice) (hv : s.Valid m) :
    (m ++ [x]).read s = m.read s := by
  by_cases hpos : 0 < s.len
  · have hlt := hv.addr_lt hpos
    simp [Mem.read, List.getD_eq_getElem?_getD, List.getElem?_append_left hlt]
  · have : s.len = 0 := by omega
    simp [Mem.read, this]

/-- What `make` followed by `copy` from a source of the same length leaves in
the fresh array: the source values. -/
theorem Mem.make_copy (m : Mem α) (src : Slice) (z : α) (hv : src.Valid m) :
    ((m.make src.len z).1.copy (m.make src.len z).2 src) = m ++ [m.read src] := by
  have hlen := Mem.length_read m src hv
  simp only [Mem.make, Mem.copy, Nat.min_self]
  rw [Mem.read_append_of_valid m _ src hv]
  have htake : (m.read src).take src.len = m.read src :=
    List.take_of_length_le (by omega)
  rw [htake]
  simp [List.getD_eq_getElem?_getD, hlen]

end MemLemmas

/-! ## Theorems: actions -/

section ActionTheorems

variable {κ ν : Type}

theorem newInsertAction_eq [Inhabited κ] (h : Heap κ ν) (K : Slice) :
    newInsertAction h K =
      .ok ({ keys := (h.keys.make K.len default).1.copy (h.keys.make K.len default).2 K,
             nodes := h.nodes ++ [List.replicate K.len none] },
           { result := ⟨h.keys.length, 0, K.len⟩, completer := ⟨1⟩,
             ns := ⟨h.nodes.length, 0, K.len⟩ }) := by
  simp [newInsertAction, Mem.make, WaitGroup.Add, WaitGroup.new]

theorem newGetAction_eq [Inhabited κ] (h : Heap κ ν) (K : Slice) :
    newGetAction h K =
      .ok ({ h with keys := (h.keys.make K.len default).1.copy (h.keys.make K.len default).2 K },
           { result := ⟨h.keys.length, 0, K.len⟩, completer := ⟨1⟩ }) := by
  simp [newGetAction, Mem.make, WaitGroup.Add, WaitGroup.new]

theorem Mem.read_fresh {α : Type} (m : Mem α) (x : List α) :
    (m ++ [x]).read ⟨m.length, 0, x.length⟩ = x := by
  simp [Mem.read, List.getD_eq_getElem?_getD]

/-- On an insertAction whose node slice is well formed, `addNode(i, n)` with
`0 ≤ i < len(ns)` succeeds, leaves the action struct and the key storage as
they were, puts `n` in slot `i` of `nodes()` and leaves every other slot of
`nodes()` as it was. -/
theorem insertAction.addNode_frame (h : Heap κ ν) (ia : insertAction)
    (i : Int) (n : Option ν) (hv : ia.ns.Valid h.nodes)
    (h0 : 0 ≤ i) (h1 : i < (ia.ns.len : Int)) :
    ∃ h', ia.addNode h i n = .ok (h', ia) ∧ h'.keys = h.keys ∧
      (h'.nodes.read ia.nodes).length = (h.nodes.read ia.nodes).length ∧
      (h'.nodes.read ia.nodes)[i.toNat]? = some n ∧
      ∀ j : Nat, j ≠ i.toNat →
        (h'.nodes.read ia.nodes)[j]? = (h.nodes.read ia.nodes)[j]? := by
  have hok := Mem.assign_ok h.nodes ia.ns i n h0 h1
  obtain ⟨_, _, hread⟩ := Mem.read_assign_self _ _ _ _ _ hv hok
  have hlen := Mem.length_read h.nodes ia.ns hv
  refine ⟨⟨h.keys,
    h.nodes.set ia.ns.addr ((h.nodes.getD ia.ns.addr []).set (ia.ns.off + i.toNat) n)⟩,
    ?_, rfl, ?_, ?_, ?_⟩
  · simp only [insertAction.addNode, hok]
  · simp only [insertAction.nodes, hread, List.length_set]
  · simp only [insertAction.nodes, hread]
    rw [List.getElem?_set_self]
    omega
  · intro j hj
    simp only [insertAction.nodes, hread]
    rw [List.getElem?_set_ne (Ne.symm hj)]

/-- An assignment through a slice keeps every slice header well formed. -/
theorem Mem.assign_valid {α : Type} (m m' : Mem α) (s t : Slice) (i : Int) (v : α)
    (h : m.assign s i v = .ok m') (ht : t.Valid m) : t.Valid m' := by
  unfold Mem.assign at h
  split_ifs at h with hi
  have hm : m' = m.set s.addr ((m.getD s.addr []).set (s.off + i.toNat) v) := by
    injection h with h; exact h.symm
  subst hm
  unfold Slice.Valid at ht ⊢
  by_cases hst : s.addr = t.addr
  · by_cases hlt : s.addr < m.length
    · rw [← hst, Mem.getD_set_self _ _ _ hlt, List.length_set]
      rw [← hst] at ht
      exact ht
    · rw [List.set_eq_of_length_le (Nat.le_of_not_lt hlt)]
      exact ht
  · rw [Mem.getD_set_ne _ _ _ _ hst]
    exact ht

/-- What an `addNode` that succeeds does to the state. -/
theorem insertAction.addNode_ok (h h1 : Heap κ ν) (ia ia1 : insertAction) (i : Int)
    (n : Option ν) (hok : ia.addNode h i n = .ok (h1, ia1)) :
    ia1 = ia ∧ h1.keys = h.keys ∧ h.nodes.assign ia.ns i n = .ok h1.nodes := by
  unfold insertAction.addNode at hok
  cases hm : h.nodes.assign ia.ns i n with
  | error e =>
    rw [hm] at hok
    exact Except.noConfusion hok
  | ok m =>
    rw [hm] at hok
    injection hok with hok
    injection hok with hh hia
    subst hh
    exact ⟨hia.symm, rfl, rfl⟩

/-- What a `complete` that succeeds does to the action. -/
theorem insertAction.complete_ok (ia ia1 : insertAction) (hok : ia.complete = .ok ia1) :
    ia1.result = ia.result ∧ ia1.ns = ia.ns := by
  unfold insertAction.complete at hok
  cases hd : ia.completer.Done with
  | error e =>
    rw [hd] at hok
    exact Except.noConfusion hok
  | ok wg =>
    rw [hd] at hok
    injection hok with hok
    subst hok
    exact ⟨rfl, rfl⟩

/-- In every state an insertAction built from `K` goes through, its node slice
is well formed and has one slot per key. -/
theorem InsertReach.ns_valid [Inhabited κ] {h0 h : Heap κ ν} {K : Slice} {ia : insertAction}
    (hr : InsertReach h0 K h ia) : ia.ns.Valid h.nodes ∧ ia.ns.len = K.len := by
  induction hr with
  | built hnew =>
    rw [newInsertAction_eq] at hnew
    injection hnew with hnew
    injection hnew with hh hia
    subst hh
    subst hia
    refine ⟨?_, rfl⟩
    show 0 + K.len ≤ ((h0.nodes ++ [List.replicate K.len none]).getD h0.nodes.length []).length
    simp [List.getD_eq_getElem?_getD]
  | addNode i n _ hok ih =>
    obtain ⟨hia, _, hassign⟩ := insertAction.addNode_ok _ _ _ _ i n hok
    subst hia
    exact ⟨Mem.assign_valid _ _ _ _ i n hassign ih.1, ih.2⟩
  | complete _ hok ih =>
    obtain ⟨_, hns⟩ := insertAction.complete_ok _ _ hok
    rw [hns]
    exact ih

/-- C1: in every state an insertAction built by `newInsertAction(K)` goes
through, `addNode(i, n)` with `0 ≤ i < len(K)` succeeds, leaves the action
struct and the key storage as they were, puts `n` in slot `i` of `nodes()` and
leaves every other slot `j ≠ i` of `nodes()` holding what it held before the
call. -/
theorem insertAction_addNode_sets_only_slot [Inhabited κ] (h0 h : Heap κ ν) (K : Slice)
    (ia : insertAction) (i : Int) (n : Option ν) (hr : InsertReach h0 K h ia)
    (hi0 : 0 ≤ i) (hi1 : i < (K.len : Int)) :
    ∃ h', ia.addNode h i n = .ok (h', ia) ∧ h'.keys = h.keys ∧
      (h'.nodes.read ia.nodes).length = (h.nodes.read ia.nodes).length ∧
      (h'.nodes.read ia.nodes)[i.toNat]? = some n ∧
      ∀ j : Nat, j ≠ i.toNat →
        (h'.nodes.read ia.nodes)[j]? = (h.nodes.read ia.nodes)[j]? := by
  obtain ⟨hv, hlen⟩ := hr.ns_valid
  exact insertAction.addNode_frame h ia i n hv hi0 (by rw [hlen]; exact hi1)

/-- C1, scenario A: `newInsertAction([5, 3, 9])` has nodes `[nil, nil, nil]`,
and after `addNode(1, X)` (here `X = 7`) the nodes are `[nil, X, nil]`. -/
theorem insertAction_addNode_sets_only_slot_witness :
    let h0 : Heap Nat Nat := ⟨[[5, 3, 9]], []⟩
    let h : Heap Nat Nat := ⟨[[5, 3, 9], [5, 3, 9]], [[none, none, none]]⟩
    let ia : insertAction := ⟨⟨1, 0, 3⟩, ⟨1⟩, ⟨0, 0, 3⟩⟩
    (InsertReach h0 ⟨0, 0, 3⟩ h ia ∧ (0 : Int) ≤ 1 ∧ (1 : Int) < ((3 : Nat) : Int)) ∧
    (newInsertAction h0 ⟨0, 0, 3⟩ = .ok (h, ia) ∧ h.nodes.read ia.nodes = [none, none, none]) ∧
    (ia.addNode h 1 (some 7)).map (fun r => r.1.nodes.read r.2.nodes) =
      .ok [none, some 7, none] ∧
    ∃ h', ia.addNode h 1 (some 7) = .ok (h', ia) ∧ h'.keys = h.keys ∧
      (h'.nodes.read ia.nodes).length = (h.nodes.read ia.nodes).length ∧
      (h'.nodes.read ia.nodes)[(1 : Int).toNat]? = some (some 7) ∧
      ∀ j : Nat, j ≠ (1 : Int).toNat →
        (h'.nodes.read ia.nodes)[j]? = (h.nodes.read ia.nodes)[j]? :=
  ⟨⟨InsertReach.built rfl, by decide, by decide⟩, ⟨rfl, by decide⟩, rfl,
    insertAction_addNode_sets_only_slot ⟨[[5, 3, 9]], []⟩
      ⟨[[5, 3, 9], [5, 3, 9]], [[none, none, none]]⟩ ⟨0, 0, 3⟩
      ⟨⟨1, 0, 3⟩, ⟨1⟩, ⟨0, 0, 3⟩⟩ 1 (some 7) (InsertReach.built rfl) (by decide) (by decide)⟩

/-- C2: for every key slice `K` (the empty one included) `newInsertAction(K)`
succeeds and its `nodes()` has length `len(K)` with every slot nil. -/
theorem newInsertAction_nodes_unset [Inhabited κ] (h : Heap κ ν) (K : Slice) :
    ∃ h' ia, newInsertAction h K = .ok (h', ia) ∧
      ia.nodes.len = K.len ∧
      h'.nodes.read ia.nodes = List.replicate K.len none ∧
      (h'.nodes.read ia.nodes).length = K.len ∧
      ∀ x ∈ h'.nodes.read ia.nodes, x = none := by
  have hread : (h.nodes ++ [List.replicate K.len (none : Option ν)]).read
      ⟨h.nodes.length, 0, K.len⟩ = List.replicate K.len none := by
    have := Mem.read_fresh h.nodes (List.replicate K.len (none : Option ν))
    simpa using this
  refine ⟨_, _, newInsertAction_eq h K, rfl, ?_, ?_, ?_⟩
  · simpa [insertAction.nodes] using hread
  · simp [insertAction.nodes, hread]
  · intro x hx
    simp only [insertAction.nodes, hread] at hx
    exact List.eq_of_mem_replicate hx

/-- C3: for every well-formed key slice `K`, `newGetAction(K)` succeeds, its
`keys()` reads the same values as `K` (so has the same length), the
caller's `K` still reads the same, the storage of `keys()` is a fresh array
that did not exist before the call, and overwriting any element of `K`
afterwards leaves what `keys()` reads unchanged. -/
theorem newGetAction_keys_copied [Inhabited κ] (h : Heap κ ν) (K : Slice)
    (hv : K.Valid h.keys) :
    ∃ h' ga, newGetAction h K = .ok (h', ga) ∧
      h'.keys.read ga.keys = h.keys.read K ∧
      ga.keys.len = K.len ∧
      h'.keys.read K = h.keys.read K ∧
      ga.keys.addr = h.keys.length ∧
      ∀ (j : Int) (v : κ) (m : Mem κ), h'.keys.assign K j v = .ok m →
        m.read ga.keys = h'.keys.read ga.keys := by
  have hcopy := Mem.make_copy h.keys K (default : κ) hv
  have hlen := Mem.length_read h.keys K hv
  refine ⟨_, _, newGetAction_eq h K, ?_, rfl, ?_, rfl, ?_⟩
  · simp only [getAction.keys, hcopy]
    have := Mem.read_fresh h.keys (h.keys.read K)
    rwa [hlen] at this
  · simp only [hcopy]
    exact Mem.read_append_of_valid _ _ _ hv
  · intro j v m hm
    simp only [hcopy] at hm ⊢
    apply Mem.read_assign_other _ _ K _ j v _ hm
    simp only [getAction.keys]
    have hj : 0 ≤ j ∧ j < (K.len : Int) := by
      unfold Mem.assign at hm
      split_ifs at hm with hj
      exact hj
    have := hv.addr_lt (by omega)
    omega

/-- C3 at `K = [5, 3, 9]`: the action's keys read `[5, 3, 9]`, and still do
after `K[0] = 8`. -/
theorem newGetAction_keys_copied_witness :
    let h : Heap Nat Nat := ⟨[[5, 3, 9]], []⟩
    let K : Slice := ⟨0, 0, 3⟩
    K.Valid h.keys ∧
    (newGetAction h K).map (fun r => r.1.keys.read r.2.keys) = .ok [5, 3, 9] ∧
    (newGetAction h K).map
      (fun r => (r.1.keys.assign K 0 8).map (fun m => (m.read K, m.read r.2.keys))) =
      .ok (.ok ([8, 3, 9], [5, 3, 9])) ∧
    ∃ h' ga, newGetAction h K = .ok (h', ga) ∧
      h'.keys.read ga.keys = h.keys.read K ∧
      ga.keys.len = K.len ∧
      h'.keys.read K = h.keys.read K ∧
      ga.keys.addr = h.keys.length ∧
      ∀ (j : Int) (v : Nat) (m : Mem Nat), h'.keys.assign K j v = .ok m →
        m.read ga.keys = h'.keys.read ga.keys :=
  ⟨by decide, rfl, rfl,
    newGetAction_keys_copied ⟨[[5, 3, 9]], []⟩ ⟨0, 0, 3⟩ (by decide)⟩

/-- C9: on every getAction, in every heap, `addNode(i, n)` succeeds for every
index and node and returns the heap and the action as they were, also when
repeated any number of times; `nodes()` is the nil slice, which reads as the
empty sequence in every memory. -/
theorem getAction_addNode_noop (h : Heap κ ν) (ga : getAction) :
    (∀ (i : Int) (n : Option ν), ga.addNode h i n = .ok (h, ga)) ∧
    (∀ calls : List (Int × Option ν),
      calls.foldlM (fun (p : Heap κ ν × getAction) c => p.2.addNode p.1 c.1 c.2) (h, ga)
        = .ok (h, ga)) ∧
    ga.nodes = Slice.nil ∧ ga.nodes.len = 0 ∧
    ∀ m : Mem (Option ν), m.read ga.nodes = [] := by
  refine ⟨fun _ _ => rfl, ?_, rfl, rfl, ?_⟩
  · intro calls
    induction calls with
    | nil => rfl
    | cons c cs ih =>
      rw [List.foldlM_cons]
      exact ih
  · intro m
    simp [Mem.read, getAction.nodes, Slice.nil]

/-- C10: a freshly built getAction or insertAction has completion counter 1
and is not released; its first `complete()` succeeds and leaves the counter
at 0, released; a second `complete()` on the result fails with the
negative-counter panic. -/
theorem complete_exactly_once [Inhabited κ] (h : Heap κ ν) (K : Slice) :
    (∃ h' ga ga1, newGetAction h K = .ok (h', ga) ∧
      ga.completer.counter = 1 ∧ ga.completer.released = false ∧
      ga.complete = .ok ga1 ∧ ga1.completer.counter = 0 ∧
      ga1.completer.released = true ∧
      ga1.complete = .error Panic.negativeWaitGroupCounter) ∧
    (∃ h' ia ia1, newInsertAction h K = .ok (h', ia) ∧
      ia.completer.counter = 1 ∧ ia.completer.released = false ∧
      ia.complete = .ok ia1 ∧ ia1.completer.counter = 0 ∧
      ia1.completer.released = true ∧
      ia1.complete = .error Panic.negativeWaitGroupCounter) := by
  refine ⟨⟨_, _, _, newGetAction_eq h K, rfl, rfl, rfl, rfl, rfl, rfl⟩,
    ⟨_, _, _, newInsertAction_eq h K, rfl, rfl, rfl, rfl, rfl, rfl⟩⟩

end ActionTheorems

/-! ## Theorems: machine integers and worker counts -/

theorem uint64_of_nonneg (x : Int) (h0 : 0 ≤ x) (h1 : x < 2 ^ 64) : uint64 x = x.toNat := by
  unfold uint64
  rw [Int.emod_eq_of_lt h0 h1]

theorem uint64_natCast (n : Nat) (h : n < 2 ^ 64) : uint64 (n : Int) = n := by
  rw [uint64_of_nonneg _ (by omega) (by omega)]
  simp

theorem int64_of_small (x : Int) (h0 : -(2 ^ 63) ≤ x) (h1 : x < 2 ^ 63) : int64 x = x := by
  unfold int64
  omega

theorem minUint64_pair (a b : Nat) : minUint64 [a, b] = .ok (min a b) := by
  simp only [minUint64, List.foldl_cons, List.foldl_nil]
  split_ifs <;> congr 1 <;> omega

/-- The state `executeInterfacesInParallel` reaches before `wg.Wait()`. -/
theorem executeInterfacesInParallel_eq_spawn {ι : Type} (ifs : List ι) (p : Int)
    (hne : ifs ≠ []) (hN : ifs.length < 2 ^ 63) (hp : 1 ≤ p) (hp63 : p < 2 ^ 63) :
    executeInterfacesInParallel ifs p =
      SliceExec.spawn ifs (-1)
        ⟨((min (if p > 1 then p.toNat - 1 else p.toNat) ifs.length : Nat) : Int)⟩
        (min (if p > 1 then p.toNat - 1 else p.toNat) ifs.length) := by
  have hlen : ifs.length ≠ 0 := by
    intro h
    exact hne (List.length_eq_zero.mp h)
  have hu : uint64 p = p.toNat := uint64_of_nonneg p (by omega) (by omega)
  have hl : uint64 (ifs.length : Int) = ifs.length := uint64_natCast _ (by omega)
  have hite : (if p.toNat > 1 then p.toNat - 1 else p.toNat) =
      (if p > 1 then p.toNat - 1 else p.toNat) := by
    split_ifs <;> omega
  unfold executeInterfacesInParallel
  rw [if_neg hlen, hu, hl]
  simp only [hite]
  rw [minUint64_pair]
  simp only []
  rw [int64_of_small (-1) (by omega) (by omega)]
  have hmin : ((min (if p > 1 then p.toNat - 1 else p.toNat) ifs.length : Nat) : Int) < 2 ^ 63 := by
    have : min (if p > 1 then p.toNat - 1 else p.toNat) ifs.length ≤ ifs.length :=
      Nat.min_le_right _ _
    omega
  rw [int64_of_small _ (by omega) hmin]
  simp only [WaitGroup.Add]
  rw [if_neg (by omega)]
  simp

/-- The state `executeInParallel` reaches before `wg.Wait()`. -/
theorem executeInParallel_eq_spawn {ι : Type} (items : List ι) (d : Bool) (p : Int)
    (hne : items ≠ []) (hp : 1 ≤ p) (hp63 : p < 2 ^ 63) :
    executeInParallel (some ⟨items, d⟩) p =
      QueueExec.spawn ⟨items, d⟩ items.length 0 ⟨1⟩ (min items.length (p - 1).toNat) := by
  have hlen : items.length ≠ 0 := by
    intro h
    exact hne (List.length_eq_zero.mp h)
  have hu : uint64 (p - 1) = (p - 1).toNat := uint64_of_nonneg _ (by omega) (by omega)
  unfold executeInParallel
  simp only [RingBuffer.Len]
  rw [if_neg hlen, hu, minUint64_pair]
  rfl

/-- C7: for a non-empty slice and `runtime.NumCPU() = p ≥ 1` the slice
executor starts exactly `min(p', N)` worker goroutines, where `p' = p - 1`
when `p > 1` and `p' = p` otherwise, each about to claim, with the claim index
at -1 and the wait group at the worker count (`N` and `p` are Go `int`s). -/
theorem executeInterfacesInParallel_worker_count {ι : Type} (ifs : List ι) (p : Int)
    (hne : ifs ≠ []) (hN : ifs.length < 2 ^ 63) (hp : 1 ≤ p) (hp63 : p < 2 ^ 63) :
    (executeInterfacesInParallel ifs p).workers.length =
        min (if p > 1 then p.toNat - 1 else p.toNat) ifs.length ∧
    (executeInterfacesInParallel ifs p).workers =
        List.replicate (min (if p > 1 then p.toNat - 1 else p.toNat) ifs.length) SlicePc.claim ∧
    (executeInterfacesInParallel ifs p).main = MainPc.wait ∧
    (executeInterfacesInParallel ifs p).done = -1 ∧
    (executeInterfacesInParallel ifs p).panic = none := by
  rw [executeInterfacesInParallel_eq_spawn ifs p hne hN hp hp63]
  simp [SliceExec.spawn]

/-- C7, scenario D: one item with `runtime.NumCPU() = 8` starts exactly one
worker; that worker calls `fn` at index 0, finds the next claim out of range
and exits, and the caller returns. -/
theorem executeInterfacesInParallel_worker_count_witness :
    (([7] : List Nat) ≠ [] ∧ ([7] : List Nat).length < 2 ^ 63 ∧ (1 : Int) ≤ 8 ∧
      (8 : Int) < 2 ^ 63) ∧
    (((executeInterfacesInParallel [7] 8).run
        [.worker 0, .worker 0, .worker 0, .worker 0, .main]).map
      (fun s => (s.calls, s.workers, s.main))) =
        some ([(0, 7)], [SlicePc.exited], MainPc.returned) ∧
    ((executeInterfacesInParallel [7] 8).workers.length =
        min (if (8 : Int) > 1 then (8 : Int).toNat - 1 else (8 : Int).toNat) [7].length ∧
    (executeInterfacesInParallel [7] 8).workers =
        List.replicate (min (if (8 : Int) > 1 then (8 : Int).toNat - 1 else (8 : Int).toNat)
          [7].length) SlicePc.claim ∧
    (executeInterfacesInParallel [7] 8).main = MainPc.wait ∧
    (executeInterfacesInParallel [7] 8).done = -1 ∧
    (executeInterfacesInParallel [7] 8).panic = none) :=
  ⟨⟨by decide, by decide, by decide, by decide⟩, by decide,
    executeInterfacesInParallel_worker_count [7] 8 (by decide) (by decide) (by decide)
      (by decide)⟩

/-! ## Theorems: the slice executor -/

section SliceTheorems

variable {ι : Type}

theorem indexInt_ok (l : List ι) (i : Int) (h0 : 0 ≤ i) (h1 : i < (l.length : Int)) :
    ∃ x, indexInt l i = .ok x := by
  have hlt : i.toNat < l.length := by omega
  refine ⟨l[i.toNat], ?_⟩
  unfold indexInt
  rw [if_pos ⟨h0, h1⟩, List.getElem?_eq_getElem hlt]

theorem SliceExec.not_returned_of_worker (s : SliceExec ι) (w : Nat) (pc : SlicePc)
    (hret : s.main = MainPc.returned → s.allExited = true)
    (hw : s.workers[w]? = some pc) (hpc : pc.isExited = false) :
    s.main ≠ MainPc.returned := by
  intro h
  have hall := hret h
  unfold SliceExec.allExited at hall
  rw [List.all_eq_true] at hall
  have := hall pc (List.getElem?_mem hw)
  rw [hpc] at this
  exact Bool.noConfusion this

theorem SliceExec.indices_append (s : SliceExec ι) (c : Int × ι) :
    ({ s with calls := s.calls ++ [c] } : SliceExec ι).indices = s.indices ++ [c.1] := by
  simp [SliceExec.indices]

theorem SliceExec.step_claim (ifs : List ι) (W : Nat)
    (hsize : (ifs.length : Int) + W < 2 ^ 63) (s t : SliceExec ι) (w : Nat)
    (hinv : SliceInv ifs W s) (hw : s.workers[w]? = some SlicePc.claim)
    (hstep : s.step (SliceLabel.worker w) = some t) :
    SliceInv ifs W t ∧ t.measure < s.measure := by
  obtain ⟨hifs, hlen, hpanic, hlb, hub, hsd, hcl, hitems, hwg, hret, hmain⟩ := hinv
  have hnr := s.not_returned_of_worker w _ hret hw rfl
  have hcw : s.workers.countP SlicePc.stopped < W := by
    rw [← hlen]
    exact List.countP_lt_length_of_getElem? _ _ w _ hw rfl
  have hi : int64 (s.done + 1) = s.done + 1 := int64_of_small _ (by omega) (by omega)
  have hN : int64 (s.ifs.length : Int) = (ifs.length : Int) := by
    rw [hifs]
    exact int64_of_small _ (by omega) (by omega)
  have cst := fun b => List.countP_set_of_getElem? SlicePc.stopped s.workers w _ b hw
  have cex := fun b => List.countP_set_of_getElem? SlicePc.isExited s.workers w _ b hw
  have ccl := fun b i => List.count_set_of_getElem? s.workers w _ b (SlicePc.call i) hw
  have csum := fun b => List.sum_map_set_of_getElem? SlicePc.weight s.workers w _ b hw
  simp only [SliceExec.step, hpanic, Option.isSome_none, Bool.false_eq_true, if_false, hw,
    hi, hN] at hstep
  split_ifs at hstep with hge
  · have ht := Option.some.inj hstep
    subst ht
    have c1 := cst SlicePc.finish
    have c2 := cex SlicePc.finish
    have c4 := csum SlicePc.finish
    simp only [SlicePc.stopped, SlicePc.isExited, SlicePc.weight, Bool.false_eq_true,
      if_false, if_true, add_zero] at c1 c2 c4
    refine ⟨⟨hifs, ?_, rfl, ?_, ?_, ?_, ?_, hitems, ?_, ?_, hmain⟩, ?_⟩
    · simp only [List.length_set, hlen]
    · show -1 ≤ s.done + 1
      omega
    · show s.done + 1 + 1 ≤ _
      rw [c1]
      push_cast
      omega
    · intro _
      show (ifs.length : Int) ≤ s.done + 1
      omega
    · intro i
      have c3 := ccl SlicePc.finish i
      simp only [reduceCtorEq, if_false, add_zero] at c3
      show s.indices.count i + (s.workers.set w SlicePc.finish).count (SlicePc.call i) =
        if 0 ≤ i ∧ i ≤ s.done + 1 ∧ i < (ifs.length : Int) then 1 else 0
      rw [c3, hcl i]
      split_ifs <;> first | rfl | omega
    · show s.wg.counter + _ = _
      rw [c2]
      exact hwg
    · intro h
      exact absurd h hnr
    · have hlen2 : s.ifs.length = ifs.length := by rw [hifs]
      simp only [SliceExec.measure, List.length_set, hlen2, hlen]
      omega
  · have ht := Option.some.inj hstep
    subst ht
    have c1 := cst (SlicePc.call (s.done + 1))
    have c2 := cex (SlicePc.call (s.done + 1))
    have c4 := csum (SlicePc.call (s.done + 1))
    simp only [SlicePc.stopped, SlicePc.isExited, SlicePc.weight, Bool.false_eq_true,
      if_false, if_true, add_zero] at c1 c2 c4
    refine ⟨⟨hifs, ?_, rfl, ?_, ?_, ?_, ?_, hitems, ?_, ?_, hmain⟩, ?_⟩
    · simp only [List.length_set, hlen]
    · show -1 ≤ s.done + 1
      omega
    · show s.done + 1 + 1 ≤ _
      rw [c1]
      omega
    · intro hpos
      rw [c1] at hpos
      have := hsd hpos
      omega
    · intro i
      have c3 := ccl (SlicePc.call (s.done + 1)) i
      simp only [reduceCtorEq, if_false, add_zero, SlicePc.call.injEq] at c3
      show s.indices.count i +
          (s.workers.set w (SlicePc.call (s.done + 1))).count (SlicePc.call i) =
        if 0 ≤ i ∧ i ≤ s.done + 1 ∧ i < (ifs.length : Int) then 1 else 0
      have := hcl i
      split_ifs at c3 this ⊢ <;> omega
    · show s.wg.counter + _ = _
      rw [c2]
      exact hwg
    · intro h
      exact absurd h hnr
    · have hlen2 : s.ifs.length = ifs.length := by rw [hifs]
      simp only [SliceExec.measure, List.length_set, hlen2, hlen]
      omega

theorem SliceExec.step_call (ifs : List ι) (W : Nat) (s t : SliceExec ι) (w : Nat) (i : Int)
    (hinv : SliceInv ifs W s) (hw : s.workers[w]? = some (SlicePc.call i))
    (hstep : s.step (SliceLabel.worker w) = some t) :
    SliceInv ifs W t ∧ t.measure < s.measure := by
  obtain ⟨hifs, hlen, hpanic, hlb, hub, hsd, hcl, hitems, hwg, hret, hmain⟩ := hinv
  have hnr := s.not_returned_of_worker w _ hret hw rfl
  have hpos : 0 < s.workers.count (SlicePc.call i) :=
    List.count_pos_iff.mpr (List.getElem?_mem hw)
  have hrange : 0 ≤ i ∧ i ≤ s.done ∧ i < (ifs.length : Int) := by
    have := hcl i
    by_contra hn
    rw [if_neg hn] at this
    omega
  obtain ⟨x, hx⟩ := indexInt_ok ifs i hrange.1 hrange.2.2
  have cst := List.countP_set_of_getElem? SlicePc.stopped s.workers w _ SlicePc.claim hw
  have cex := List.countP_set_of_getElem? SlicePc.isExited s.workers w _ SlicePc.claim hw
  have ccl := fun j =>
    List.count_set_of_getElem? s.workers w _ SlicePc.claim (SlicePc.call j) hw
  have csum := List.sum_map_set_of_getElem? SlicePc.weight s.workers w _ SlicePc.claim hw
  simp only [SlicePc.stopped, SlicePc.isExited, SlicePc.weight, Bool.false_eq_true,
    if_false, if_true, add_zero] at cst cex csum
  simp only [SliceExec.step, hpanic, Option.isSome_none, Bool.false_eq_true, if_false, hw,
    hifs, hx] at hstep
  have ht := Option.some.inj hstep
  subst ht
  refine ⟨⟨rfl, ?_, rfl, hlb, ?_, ?_, ?_, ?_, ?_, ?_, hmain⟩, ?_⟩
  · simp only [List.length_set, hlen]
  · show s.done + 1 ≤ _
    rw [cst]
    exact hub
  · intro h
    rw [cst] at h
    exact hsd h
  · intro j
    have c3 := ccl j
    simp only [reduceCtorEq, if_false, add_zero, SlicePc.call.injEq] at c3
    have hj := hcl j
    show (List.map Prod.fst (s.calls ++ [(i, x)])).count j +
        (s.workers.set w SlicePc.claim).count (SlicePc.call j) =
      if 0 ≤ j ∧ j ≤ s.done ∧ j < (ifs.length : Int) then 1 else 0
    rw [List.map_append, List.count_append]
    simp only [List.map_cons, List.map_nil, List.count_cons, List.count_nil, beq_iff_eq]
    unfold SliceExec.indices at hj
    split_ifs at c3 hj ⊢ <;> omega
  · intro c hc
    rcases List.mem_append.mp hc with h | h
    · exact hitems c h
    · rw [List.mem_singleton] at h
      subst h
      exact hx
  · show s.wg.counter + _ = _
    rw [cex]
    exact hwg
  · intro h
    exact absurd h hnr
  · show SliceExec.measure _ < _
    simp only [SliceExec.measure, List.length_set, hlen, hifs]
    omega

theorem SliceExec.step_finish (ifs : List ι) (W : Nat) (s t : SliceExec ι) (w : Nat)
    (hinv : SliceInv ifs W s) (hw : s.workers[w]? = some SlicePc.finish)
    (hstep : s.step (SliceLabel.worker w) = some t) :
    SliceInv ifs W t ∧ t.measure < s.measure := by
  obtain ⟨hifs, hlen, hpanic, hlb, hub, hsd, hcl, hitems, hwg, hret, hmain⟩ := hinv
  have hnr := s.not_returned_of_worker w _ hret hw rfl
  have hlt : s.workers.countP SlicePc.isExited < W := by
    rw [← hlen]
    exact List.countP_lt_length_of_getElem? _ _ w _ hw rfl
  have hdone : s.wg.Done = .ok ⟨s.wg.counter + -1⟩ := by
    unfold WaitGroup.Done WaitGroup.Add
    rw [if_neg (by omega)]
  have cst := List.countP_set_of_getElem? SlicePc.stopped s.workers w _ SlicePc.exited hw
  have cex := List.countP_set_of_getElem? SlicePc.isExited s.workers w _ SlicePc.exited hw
  have ccl := fun j =>
    List.count_set_of_getElem? s.workers w _ SlicePc.exited (SlicePc.call j) hw
  have csum := List.sum_map_set_of_getElem? SlicePc.weight s.workers w _ SlicePc.exited hw
  simp only [SlicePc.stopped, SlicePc.isExited, SlicePc.weight, Bool.false_eq_true,
    if_false, if_true, add_zero] at cst cex csum
  simp only [SliceExec.step, hpanic, Option.isSome_none, Bool.false_eq_true, if_false, hw,
    hdone] at hstep
  have ht := Option.some.inj hstep
  subst ht
  refine ⟨⟨hifs, ?_, rfl, hlb, ?_, ?_, ?_, hitems, ?_, ?_, hmain⟩, ?_⟩
  · simp only [List.length_set, hlen]
  · show s.done + 1 ≤ _
    have : (s.workers.set w SlicePc.exited).countP SlicePc.stopped =
        s.workers.countP SlicePc.stopped := by omega
    rw [this]
    exact hub
  · intro h
    have h2 : 0 < (s.workers.set w SlicePc.exited).countP SlicePc.stopped := h
    apply hsd
    omega
  · intro j
    have c3 := ccl j
    simp only [reduceCtorEq, if_false, add_zero] at c3
    show s.indices.count j + (s.workers.set w SlicePc.exited).count (SlicePc.call j) = _
    rw [c3]
    exact hcl j
  · show s.wg.counter + -1 + _ = _
    rw [cex]
    push_cast
    omega
  · intro h
    exact absurd h hnr
  · simp only [SliceExec.measure, List.length_set, hlen]
    omega

theorem SliceExec.step_main (ifs : List ι) (W : Nat) (s t : SliceExec ι)
    (hinv : SliceInv ifs W s) (hstep : s.step SliceLabel.main = some t) :
    SliceInv ifs W t ∧ t.measure < s.measure := by
  obtain ⟨hifs, hlen, hpanic, hlb, hub, hsd, hcl, hitems, hwg, hret, hmain⟩ := hinv
  simp only [SliceExec.step, hpanic, Option.isSome_none, Bool.false_eq_true, if_false]
    at hstep
  cases hm : s.main with
  | dispose => exact absurd hm hmain
  | returned => simp [hm] at hstep
  | wait =>
    simp only [hm] at hstep
    split_ifs at hstep with hrel
    have ht := Option.some.inj hstep
    subst ht
    have hzero : s.wg.counter = 0 := by
      simpa [WaitGroup.released] using hrel
    refine ⟨⟨hifs, hlen, rfl, hlb, hub, hsd, hcl, hitems, hwg, ?_, ?_⟩, ?_⟩
    · intro _
      show s.workers.all SlicePc.isExited = true
      rw [List.all_eq_true]
      apply List.countP_eq_length.mp
      omega
    · intro h
      exact MainPc.noConfusion h
    · simp only [SliceExec.measure, hm]
      simp

/-- Every step of the slice executor keeps the invariant and uses up measure. -/
theorem SliceExec.step_inv (ifs : List ι) (W : Nat)
    (hsize : (ifs.length : Int) + W < 2 ^ 63) (s t : SliceExec ι) (l : SliceLabel)
    (hinv : SliceInv ifs W s) (hstep : s.step l = some t) :
    SliceInv ifs W t ∧ t.measure < s.measure := by
  cases l with
  | main => exact SliceExec.step_main ifs W s t hinv hstep
  | worker w =>
    cases hw : s.workers[w]? with
    | none =>
      exfalso
      simp [SliceExec.step, hinv.no_panic, hw] at hstep
    | some pc =>
      cases pc with
      | claim => exact SliceExec.step_claim ifs W hsize s t w hinv hw hstep
      | call i => exact SliceExec.step_call ifs W s t w i hinv hw hstep
      | finish => exact SliceExec.step_finish ifs W s t w hinv hw hstep
      | exited =>
        exfalso
        simp [SliceExec.step, hinv.no_panic, hw] at hstep

theorem SliceExec.spawn_inv (ifs : List ι) (W : Nat) :
    SliceInv ifs W (SliceExec.spawn ifs (-1) ⟨W⟩ W) := by
  have hst : (List.replicate W SlicePc.claim).countP SlicePc.stopped = 0 := by
    rw [List.countP_replicate]
    rfl
  have hex : (List.replicate W SlicePc.claim).countP SlicePc.isExited = 0 := by
    rw [List.countP_replicate]
    rfl
  refine ⟨rfl, ?_, rfl, ?_, ?_, ?_, ?_, ?_, ?_, ?_, ?_⟩
  · simp [SliceExec.spawn]
  · show (-1 : Int) ≤ -1
    omega
  · show (-1 : Int) + 1 ≤ (ifs.length : Int) +
      ((List.replicate W SlicePc.claim).countP SlicePc.stopped : Nat)
    omega
  · intro h
    have h2 : 0 < (List.replicate W SlicePc.claim).countP SlicePc.stopped := h
    omega
  · intro i
    show ([] : List Int).count i + (List.replicate W SlicePc.claim).count (SlicePc.call i) =
      if 0 ≤ i ∧ i ≤ (-1 : Int) ∧ i < (ifs.length : Int) then 1 else 0
    have hn : ¬ (0 ≤ i ∧ i ≤ (-1 : Int) ∧ i < (ifs.length : Int)) := by omega
    rw [List.count_replicate, if_neg hn]
    simp
  · intro c hc
    exact absurd hc (List.not_mem_nil c)
  · show (W : Int) + ((List.replicate W SlicePc.claim).countP SlicePc.isExited : Nat) = W
    omega
  · intro h
    exact MainPc.noConfusion h
  · intro h
    exact MainPc.noConfusion h

/-- Every schedule keeps the invariant, and is no longer than the measure it
uses up. -/
theorem SliceExec.run_inv (ifs : List ι) (W : Nat)
    (hsize : (ifs.length : Int) + W < 2 ^ 63) (sched : List SliceLabel) :
    ∀ s t : SliceExec ι, SliceInv ifs W s → s.run sched = some t →
      SliceInv ifs W t ∧ t.measure + sched.length ≤ s.measure := by
  induction sched with
  | nil =>
    intro s t hinv hrun
    have := Option.some.inj hrun
    subst this
    exact ⟨hinv, Nat.le_refl _⟩
  | cons l ls ih =>
    intro s t hinv hrun
    simp only [SliceExec.run] at hrun
    cases hstep : s.step l with
    | none => simp [hstep] at hrun
    | some u =>
      rw [hstep] at hrun
      obtain ⟨hu, hlt⟩ := SliceExec.step_inv ifs W hsize s u l hinv hstep
      obtain ⟨ht, hle⟩ := ih u t hu hrun
      refine ⟨ht, ?_⟩
      simp only [List.length_cons]
      omega

theorem SliceExec.run_append (s : SliceExec ι) (xs ys : List SliceLabel) :
    s.run (xs ++ ys) = (s.run xs).bind (fun t => t.run ys) := by
  induction xs generalizing s with
  | nil => rfl
  | cons l ls ih =>
    simp only [List.cons_append, SliceExec.run]
    cases s.step l with
    | none => rfl
    | some u => exact ih u

/-- While the caller has not returned, some goroutine can take a step. -/
theorem SliceExec.progress (ifs : List ι) (W : Nat) (s : SliceExec ι)
    (hinv : SliceInv ifs W s) (hm : s.main ≠ MainPc.returned) :
    ∃ l t, s.step l = some t := by
  by_cases hall : s.workers.countP SlicePc.isExited = s.workers.length
  · refine ⟨SliceLabel.main, { s with main := MainPc.returned }, ?_⟩
    have hwait : s.main = MainPc.wait := by
      cases h : s.main with
      | wait => rfl
      | dispose => exact absurd h hinv.main_ne
      | returned => exact absurd h hm
    have hzero : s.wg.counter = 0 := by
      have := hinv.wg_eq
      have := hinv.workers_len
      omega
    simp [SliceExec.step, hinv.no_panic, hwait, WaitGroup.released, hzero]
  · have hex : ∃ pc ∈ s.workers, ¬ (SlicePc.isExited pc = true) := by
      by_contra hno
      apply hall
      apply List.countP_eq_length.mpr
      intro a ha
      by_contra hna
      exact hno ⟨a, ha, hna⟩
    obtain ⟨pc, hmem, hpc⟩ := hex
    obtain ⟨w, hw⟩ := List.mem_iff_getElem?.mp hmem
    refine ⟨SliceLabel.worker w, ?_⟩
    cases pc with
    | claim =>
      simp only [SliceExec.step, hinv.no_panic, Option.isSome_none, Bool.false_eq_true,
        if_false, hw]
      split_ifs <;> exact ⟨_, rfl⟩
    | call i =>
      simp only [SliceExec.step, hinv.no_panic, Option.isSome_none, Bool.false_eq_true,
        if_false, hw]
      split <;> exact ⟨_, rfl⟩
    | finish =>
      simp only [SliceExec.step, hinv.no_panic, Option.isSome_none, Bool.false_eq_true,
        if_false, hw]
      split <;> exact ⟨_, rfl⟩
    | exited => exact absurd rfl hpc

/-- From every state the executor reaches, some continuation lets the caller
return. -/
theorem SliceExec.can_return (ifs : List ι) (W : Nat)
    (hsize : (ifs.length : Int) + W < 2 ^ 63) :
    ∀ (n : Nat) (s : SliceExec ι), s.measure ≤ n → SliceInv ifs W s →
      ∃ rest t, s.run rest = some t ∧ t.main = MainPc.returned := by
  intro n
  induction n with
  | zero =>
    intro s hn hinv
    by_cases hm : s.main = MainPc.returned
    · exact ⟨[], s, rfl, hm⟩
    · obtain ⟨l, t, hstep⟩ := SliceExec.progress ifs W s hinv hm
      have := (SliceExec.step_inv ifs W hsize s t l hinv hstep).2
      omega
  | succ n ih =>
    intro s hn hinv
    by_cases hm : s.main = MainPc.returned
    · exact ⟨[], s, rfl, hm⟩
    · obtain ⟨l, t, hstep⟩ := SliceExec.progress ifs W s hinv hm
      obtain ⟨ht, hlt⟩ := SliceExec.step_inv ifs W hsize s t l hinv hstep
      obtain ⟨rest, u, hrun, hu⟩ := ih t (by omega) ht
      refine ⟨l :: rest, u, ?_, hu⟩
      simp only [SliceExec.run, hstep]
      exact hrun

/-- What every reachable state of the slice executor satisfies. -/
theorem SliceExec.exactly_once_of_inv (ifs : List ι) (W : Nat) (hW : 0 < W)
    (s : SliceExec ι) (hinv : SliceInv ifs W s) :
    s.panic = none ∧
    s.indices.Nodup ∧
    (∀ c ∈ s.calls, 0 ≤ c.1 ∧ c.1 < (ifs.length : Int) ∧ indexInt ifs c.1 = .ok c.2) ∧
    (s.allExited = true → ∀ i : Nat, i < ifs.length → s.indices.count (i : Int) = 1) ∧
    (s.main = MainPc.returned → s.allExited = true) := by
  refine ⟨hinv.no_panic, ?_, ?_, ?_, hinv.returned⟩
  · rw [List.nodup_iff_count_le_one]
    intro i
    have := hinv.claimed i
    split_ifs at this <;> omega
  · intro c hc
    have hmem : c.1 ∈ s.indices := List.mem_map_of_mem Prod.fst hc
    have hpos : 0 < s.indices.count c.1 := List.count_pos_iff.mpr hmem
    have := hinv.claimed c.1
    refine ⟨?_, ?_, hinv.items c hc⟩
    · by_contra hn
      rw [if_neg (fun h => hn h.1)] at this
      omega
    · by_contra hn
      rw [if_neg (fun h => hn h.2.2)] at this
      omega
  · intro hall i hi
    unfold SliceExec.allExited at hall
    rw [List.all_eq_true] at hall
    have hcnt : s.workers.countP SlicePc.isExited = s.workers.length :=
      List.countP_eq_length.mpr hall
    have hsub : s.workers.countP SlicePc.isExited ≤ s.workers.countP SlicePc.stopped := by
      apply List.countP_mono_left
      intro pc _ hpc
      cases pc <;> first | rfl | exact Bool.noConfusion hpc
    have hdone := hinv.stopped_done (by have := hinv.workers_len; omega)
    have hzero : s.workers.count (SlicePc.call (i : Int)) = 0 := by
      rw [List.count_eq_zero]
      intro hmem
      exact Bool.noConfusion (hall _ hmem)
    have := hinv.claimed (i : Int)
    rw [if_pos (by omega), hzero] at this
    omega

/-- C4: the slice executor started with `N` items and any number `W ≥ 1` of
workers (claim index at -1, `N + W` within `int64`).  In every state reached
under any interleaving of worker and caller steps: nothing has panicked, no
index has been passed to `fn` twice, every call was `fn(ifs[i])` for an `i`
in `[0, N)`; once all workers have exited, `fn` has been called exactly once
at each index `0 .. N-1`; the caller returns only after all workers have
exited; the schedule is at most `3N + 4W + 1` steps long; and some
continuation lets the caller return. -/
theorem executeInterfacesInParallel_exactly_once (ifs : List ι) (W : Nat) (hW : 0 < W)
    (hsize : (ifs.length : Int) + W < 2 ^ 63) (sched : List SliceLabel) (s : SliceExec ι)
    (hrun : (SliceExec.spawn ifs (-1) ⟨W⟩ W).run sched = some s) :
    s.panic = none ∧
    s.indices.Nodup ∧
    (∀ c ∈ s.calls, 0 ≤ c.1 ∧ c.1 < (ifs.length : Int) ∧ indexInt ifs c.1 = .ok c.2) ∧
    (s.allExited = true → ∀ i : Nat, i < ifs.length → s.indices.count (i : Int) = 1) ∧
    (s.main = MainPc.returned → s.allExited = true) ∧
    sched.length ≤ 3 * ifs.length + 4 * W + 1 ∧
    ∃ rest t, s.run rest = some t ∧ t.main = MainPc.returned := by
  obtain ⟨hinv, hle⟩ :=
    SliceExec.run_inv ifs W hsize sched _ s (SliceExec.spawn_inv ifs W) hrun
  obtain ⟨h1, h2, h3, h4, h5⟩ := SliceExec.exactly_once_of_inv ifs W hW s hinv
  refine ⟨h1, h2, h3, h4, h5, ?_, SliceExec.can_return ifs W hsize _ s (Nat.le_refl _) hinv⟩
  have hm : (SliceExec.spawn ifs (-1) ⟨W⟩ W).measure = 3 * ifs.length + 4 * W + 1 := by
    simp only [SliceExec.measure, SliceExec.spawn, List.length_replicate, List.map_replicate,
      List.sum_replicate, SlicePc.weight]
    simp
    omega
  omega

/-- C4 on three items and two workers, under an interleaving in which index 1
is processed before index 0. -/
theorem executeInterfacesInParallel_exactly_once_witness :
    (0 < 2 ∧ ((([10, 20, 30] : List Nat).length : Int) + (2 : Nat) < 2 ^ 63) ∧
      (SliceExec.spawn [10, 20, 30] (-1) ⟨(2 : Nat)⟩ 2).run
        [.worker 0, .worker 1, .worker 1, .worker 1, .worker 0, .worker 0, .worker 1,
          .worker 0, .worker 1, .worker 1, .main] =
        some ⟨[10, 20, 30], 4, ⟨0⟩, [.exited, .exited], .returned,
          [(1, 20), (0, 10), (2, 30)], none⟩) ∧
    ((⟨[10, 20, 30], 4, ⟨0⟩, [.exited, .exited], .returned,
          [(1, 20), (0, 10), (2, 30)], none⟩ : SliceExec Nat).panic = none ∧
    (⟨[10, 20, 30], 4, ⟨0⟩, [.exited, .exited], .returned,
          [(1, 20), (0, 10), (2, 30)], none⟩ : SliceExec Nat).indices.Nodup ∧
    (∀ c ∈ (⟨[10, 20, 30], 4, ⟨0⟩, [.exited, .exited], .returned,
          [(1, 20), (0, 10), (2, 30)], none⟩ : SliceExec Nat).calls,
      0 ≤ c.1 ∧ c.1 < (([10, 20, 30] : List Nat).length : Int) ∧
        indexInt [10, 20, 30] c.1 = .ok c.2) ∧
    ((⟨[10, 20, 30], 4, ⟨0⟩, [.exited, .exited], .returned,
          [(1, 20), (0, 10), (2, 30)], none⟩ : SliceExec Nat).allExited = true →
      ∀ i : Nat, i < ([10, 20, 30] : List Nat).length →
        (⟨[10, 20, 30], 4, ⟨0⟩, [.exited, .exited], .returned,
          [(1, 20), (0, 10), (2, 30)], none⟩ : SliceExec Nat).indices.count (i : Int) = 1) ∧
    ((⟨[10, 20, 30], 4, ⟨0⟩, [.exited, .exited], .returned,
          [(1, 20), (0, 10), (2, 30)], none⟩ : SliceExec Nat).main = MainPc.returned →
      (⟨[10, 20, 30], 4, ⟨0⟩, [.exited, .exited], .returned,
          [(1, 20), (0, 10), (2, 30)], none⟩ : SliceExec Nat).allExited = true) ∧
    ([.worker 0, .worker 1, .worker 1, .worker 1, .worker 0, .worker 0, .worker 1,
          .worker 0, .worker 1, .worker 1, .main] : List SliceLabel).length ≤
      3 * ([10, 20, 30] : List Nat).length + 4 * 2 + 1 ∧
    ∃ rest t, (⟨[10, 20, 30], 4, ⟨0⟩, [.exited, .exited], .returned,
          [(1, 20), (0, 10), (2, 30)], none⟩ : SliceExec Nat).run rest = some t ∧
      t.main = MainPc.returned) :=
  ⟨⟨by decide, by decide, rfl⟩,
    executeInterfacesInParallel_exactly_once [10, 20, 30] 2 (by decide) (by decide)
      [.worker 0, .worker 1, .worker 1, .worker 1, .worker 0, .worker 0, .worker 1,
        .worker 0, .worker 1, .worker 1, .main]
      ⟨[10, 20, 30], 4, ⟨0⟩, [.exited, .exited], .returned, [(1, 20), (0, 10), (2, 30)], none⟩
      rfl⟩

/-- The invariant holds in every state reached from the state the function
`executeInterfacesInParallel` itself starts its workers in. -/
theorem executeInterfacesInParallel_run_inv (ifs : List ι) (p : Int)
    (hne : ifs ≠ []) (hN : ifs.length < 2 ^ 62) (hp : 1 ≤ p) (hp63 : p < 2 ^ 63)
    (sched : List SliceLabel) (s : SliceExec ι)
    (hrun : (executeInterfacesInParallel ifs p).run sched = some s) :
    0 < min (if p > 1 then p.toNat - 1 else p.toNat) ifs.length ∧
    SliceInv ifs (min (if p > 1 then p.toNat - 1 else p.toNat) ifs.length) s := by
  have hpos : 0 < ifs.length := List.length_pos.mpr hne
  have hW : 0 < min (if p > 1 then p.toNat - 1 else p.toNat) ifs.length := by
    apply Nat.lt_min.mpr
    constructor
    · split_ifs <;> omega
    · exact hpos
  have hle : min (if p > 1 then p.toNat - 1 else p.toNat) ifs.length ≤ ifs.length :=
    Nat.min_le_right _ _
  rw [executeInterfacesInParallel_eq_spawn ifs p hne (by omega) hp hp63] at hrun
  exact ⟨hW, (SliceExec.run_inv ifs _ (by omega) sched _ s (SliceExec.spawn_inv ifs _) hrun).1⟩

end SliceTheorems

/-! ## Theorems: the bounded-queue executor -/

section QueueTheorems

variable {ι : Type}

theorem List.filterMap_set_perm {α β : Type} (f : α → Option β) (l : List α) (w : Nat)
    (a b : α) (h : l[w]? = some a) :
    ((f b).toList ++ l.filterMap f).Perm ((f a).toList ++ (l.set w b).filterMap f) := by
  induction l generalizing w with
  | nil => simp at h
  | cons x xs ih =>
    cases w with
    | zero =>
      simp only [List.getElem?_cons_zero, Option.some.injEq] at h
      subst h
      simp only [List.set_cons_zero, List.filterMap_cons]
      cases hx : f x <;> cases hb : f b <;> simp only [Option.toList, List.nil_append,
        List.singleton_append]
      · exact List.Perm.refl _
      · exact List.Perm.refl _
      · exact List.Perm.refl _
      · exact List.Perm.swap _ _ _
    | succ w =>
      simp only [List.getElem?_cons_succ] at h
      have := ih w h
      simp only [List.set_cons_succ, List.filterMap_cons]
      cases hx : f x with
      | none => exact this
      | some vx =>
        simp only []
        exact (List.perm_middle.trans (List.Perm.cons vx this)).trans List.perm_middle.symm

theorem QueueExec.queue_step_get (items : List ι) (W : Nat) (s t : QueueExec ι) (w : Nat)
    (hinv : QueueInv items s) (hw : s.workers[w]? = some QueuePc.get)
    (hstep : s.step (QueueLabel.worker w) = some t) :
    QueueInv items t ∧ (QueueOwnInv W s → QueueOwnInv W t ∧ t.measure < s.measure) := by
  obtain ⟨htodo, hpanic, hq, hacc, hdone, hlb, hub, hsig, hmwg, hret⟩ := hinv
  obtain ⟨rb, hrb⟩ := Option.isSome_iff_exists.mp hq
  have hitem := fun b => List.filterMap_set_perm QueuePc.item s.workers w _ b hw
  have ccnt := fun b => List.countP_set_of_getElem? QueuePc.isCount s.workers w _ b hw
  have csig := fun b => List.countP_set_of_getElem? QueuePc.isSignal s.workers w _ b hw
  have cex := fun b => List.countP_set_of_getElem? QueuePc.isExited s.workers w _ b hw
  have csum := fun b => List.sum_map_set_of_getElem? QueuePc.weight s.workers w _ b hw
  have hpend : s.pending = rb.items := by simp only [QueueExec.pending, hrb]
  have hdisp : s.disposed = rb.disposed := by simp only [QueueExec.disposed, hrb]
  simp only [QueueExec.step, hpanic, Option.isSome_none, Bool.false_eq_true, if_false, hw,
    hrb, RingBuffer.Get] at hstep
  by_cases hd : rb.disposed = true
  · simp only [hd, if_true] at hstep
    have ht := Option.some.inj hstep
    subst ht
    have h1 := hitem QueuePc.exited
    have h2 := ccnt QueuePc.exited
    have h3 := csig QueuePc.exited
    have h4 := cex QueuePc.exited
    have h5 := csum QueuePc.exited
    simp only [QueuePc.item, QueuePc.isCount, QueuePc.isSignal, QueuePc.isExited,
      QueuePc.weight, Option.toList, List.nil_append, Bool.false_eq_true, if_false, if_true,
      add_zero] at h1 h2 h3 h4 h5
    refine ⟨⟨htodo, rfl, rfl, ?_, ?_, hlb, hub, ?_, hmwg, ?_⟩, ?_⟩
    · show (s.calls ++ ((s.workers.set w QueuePc.exited).filterMap QueuePc.item ++
        rb.items)).Perm items
      rw [← hpend]
      exact ((h1.symm.append_right _).append_left _).trans hacc
    · show s.done + (s.workers.set w QueuePc.exited).countP QueuePc.isCount = _
      rw [h2]
      exact hdone
    · show (((s.workers.set w QueuePc.exited).countP QueuePc.isSignal : Nat) : Int) + _ = _
      rw [h3]
      exact hsig
    · intro _
      exact hd
    · intro hown
      obtain ⟨hlen, hopen, hexit⟩ := hown
      refine ⟨⟨?_, ?_, ?_⟩, ?_⟩
      · simp only [List.length_set, hlen]
      · intro hm
        have := hopen hm
        rw [hdisp, hd] at this
        exact Bool.noConfusion this
      · intro h
        have h6 : rb.disposed = false := h
        rw [hd] at h6
        exact Bool.noConfusion h6
      · show 5 * rb.items.length +
          ((s.workers.set w QueuePc.exited).map QueuePc.weight).sum + _ < _
        simp only [QueueExec.measure, hpend]
        omega
  · simp only [hd, Bool.false_eq_true, if_false] at hstep
    cases hi : rb.items with
    | nil => simp [hi] at hstep
    | cons x rest =>
      simp only [hi] at hstep
      have ht := Option.some.inj hstep
      subst ht
      have h1 := hitem (QueuePc.call x)
      have h2 := ccnt (QueuePc.call x)
      have h3 := csig (QueuePc.call x)
      have h4 := cex (QueuePc.call x)
      have h5 := csum (QueuePc.call x)
      simp only [QueuePc.item, QueuePc.isCount, QueuePc.isSignal, QueuePc.isExited,
        QueuePc.weight, Option.toList, List.nil_append, List.singleton_append,
        Bool.false_eq_true, if_false, if_true, add_zero] at h1 h2 h3 h4 h5
      refine ⟨⟨htodo, rfl, rfl, ?_, ?_, hlb, hub, ?_, hmwg, ?_⟩, ?_⟩
      · show (s.calls ++ ((s.workers.set w (QueuePc.call x)).filterMap QueuePc.item ++
          rest)).Perm items
        rw [hpend, hi] at hacc
        refine (List.Perm.append_left _ ?_).trans hacc
        exact (h1.symm.append_right rest).trans List.perm_middle.symm
      · show s.done + (s.workers.set w (QueuePc.call x)).countP QueuePc.isCount = _
        rw [h2]
        exact hdone
      · show (((s.workers.set w (QueuePc.call x)).countP QueuePc.isSignal : Nat) : Int) + _
          = _
        rw [h3]
        exact hsig
      · intro hm
        have := hret hm
        rw [hdisp] at this
        exact absurd this hd
      · intro hown
        obtain ⟨hlen, hopen, hexit⟩ := hown
        have hdf : rb.disposed = false := by
          cases h : rb.disposed
          · rfl
          · exact absurd h hd
        refine ⟨⟨?_, ?_, ?_⟩, ?_⟩
        · simp only [List.length_set, hlen]
        · intro _
          rfl
        · intro _
          have h6 := hexit (hdisp.trans hdf)
          show (((s.workers.set w (QueuePc.call x)).countP QueuePc.isExited : Nat) : Int)
            + _ = _
          rw [h4]
          exact h6
        · show 5 * rest.length +
            ((s.workers.set w (QueuePc.call x)).map QueuePc.weight).sum + _ < _
          simp only [QueueExec.measure, hpend, hi, List.length_cons]
          omega

theorem QueueExec.queue_step_call (items : List ι) (W : Nat) (s t : QueueExec ι) (w : Nat) (x : ι)
    (hinv : QueueInv items s) (hw : s.workers[w]? = some (QueuePc.call x))
    (hstep : s.step (QueueLabel.worker w) = some t) :
    QueueInv items t ∧ (QueueOwnInv W s → QueueOwnInv W t ∧ t.measure < s.measure) := by
  obtain ⟨htodo, hpanic, hq, hacc, hdone, hlb, hub, hsig, hmwg, hret⟩ := hinv
  have h1 := List.filterMap_set_perm QueuePc.item s.workers w _ QueuePc.count hw
  have h2 := List.countP_set_of_getElem? QueuePc.isCount s.workers w _ QueuePc.count hw
  have h3 := List.countP_set_of_getElem? QueuePc.isSignal s.workers w _ QueuePc.count hw
  have h4 := List.countP_set_of_getElem? QueuePc.isExited s.workers w _ QueuePc.count hw
  have h5 := List.sum_map_set_of_getElem? QueuePc.weight s.workers w _ QueuePc.count hw
  simp only [QueuePc.item, QueuePc.isCount, QueuePc.isSignal, QueuePc.isExited,
    QueuePc.weight, Option.toList, List.nil_append, List.singleton_append,
    Bool.false_eq_true, if_false, if_true, add_zero] at h1 h2 h3 h4 h5
  simp only [QueueExec.step, hpanic, Option.isSome_none, Bool.false_eq_true, if_false, hw]
    at hstep
  have ht := Option.some.inj hstep
  subst ht
  refine ⟨⟨htodo, rfl, hq, ?_, ?_, hlb, hub, ?_, hmwg, hret⟩, ?_⟩
  · show ((s.calls ++ [x]) ++ ((s.workers.set w QueuePc.count).filterMap QueuePc.item ++
      s.pending)).Perm items
    rw [List.append_assoc]
    refine (List.Perm.append_left _ ?_).trans hacc
    exact h1.symm.append_right _
  · show s.done + (s.workers.set w QueuePc.count).countP QueuePc.isCount =
      (s.calls ++ [x]).length
    rw [List.length_append, List.length_singleton]
    omega
  · show (((s.workers.set w QueuePc.count).countP QueuePc.isSignal : Nat) : Int) + _ = _
    rw [h3]
    exact hsig
  · intro hown
    obtain ⟨hlen, hopen, hexit⟩ := hown
    refine ⟨⟨?_, hopen, ?_⟩, ?_⟩
    · simp only [List.length_set, hlen]
    · intro h
      show (((s.workers.set w QueuePc.count).countP QueuePc.isExited : Nat) : Int) + _ = _
      rw [h4]
      exact hexit h
    · show 5 * s.pending.length + ((s.workers.set w QueuePc.count).map QueuePc.weight).sum
        + _ < _
      simp only [QueueExec.measure]
      omega

theorem QueueExec.queue_step_count (items : List ι) (W : Nat) (hN : items.length < 2 ^ 64)
    (s t : QueueExec ι) (w : Nat)
    (hinv : QueueInv items s) (hw : s.workers[w]? = some QueuePc.count)
    (hstep : s.step (QueueLabel.worker w) = some t) :
    QueueInv items t ∧ (QueueOwnInv W s → QueueOwnInv W t ∧ t.measure < s.measure) := by
  obtain ⟨htodo, hpanic, hq, hacc, hdone, hlb, hub, hsig, hmwg, hret⟩ := hinv
  have hitem := fun b => List.filterMap_set_perm QueuePc.item s.workers w _ b hw
  have ccnt := fun b => List.countP_set_of_getElem? QueuePc.isCount s.workers w _ b hw
  have csig := fun b => List.countP_set_of_getElem? QueuePc.isSignal s.workers w _ b hw
  have cex := fun b => List.countP_set_of_getElem? QueuePc.isExited s.workers w _ b hw
  have csum := fun b => List.sum_map_set_of_getElem? QueuePc.weight s.workers w _ b hw
  have hcalls : s.calls.length ≤ items.length := by
    have := hacc.length_eq
    rw [List.length_append] at this
    omega
  have hpos : 0 < s.workers.countP QueuePc.isCount := by
    have := ccnt QueuePc.get
    simp only [QueuePc.isCount, Bool.false_eq_true, if_false, if_true, add_zero] at this
    omega
  have hd : (s.done + 1) % 2 ^ 64 = s.done + 1 := Nat.mod_eq_of_lt (by omega)
  simp only [QueueExec.step, hpanic, Option.isSome_none, Bool.false_eq_true, if_false, hw,
    hd] at hstep
  split_ifs at hstep with heq
  · have ht := Option.some.inj hstep
    subst ht
    have h1 := hitem QueuePc.signal
    have h2 := ccnt QueuePc.signal
    have h3 := csig QueuePc.signal
    have h4 := cex QueuePc.signal
    have h5 := csum QueuePc.signal
    simp only [QueuePc.item, QueuePc.isCount, QueuePc.isSignal, QueuePc.isExited,
      QueuePc.weight, Option.toList, List.nil_append, Bool.false_eq_true, if_false, if_true,
      add_zero] at h1 h2 h3 h4 h5
    refine ⟨⟨htodo, rfl, hq, ?_, ?_, hlb, hub, ?_, hmwg, hret⟩, ?_⟩
    · show (s.calls ++ ((s.workers.set w QueuePc.signal).filterMap QueuePc.item ++
        s.pending)).Perm items
      exact ((h1.symm.append_right _).append_left _).trans hacc
    · show s.done + 1 + (s.workers.set w QueuePc.signal).countP QueuePc.isCount =
        s.calls.length
      omega
    · show (((s.workers.set w QueuePc.signal).countP QueuePc.isSignal : Nat) : Int) + _ =
        if s.done + 1 = s.todo then 1 else 0
      rw [if_pos heq, h3]
      rw [if_neg (by omega)] at hsig
      push_cast
      omega
    · intro hown
      obtain ⟨hlen, hopen, hexit⟩ := hown
      refine ⟨⟨?_, hopen, ?_⟩, ?_⟩
      · simp only [List.length_set, hlen]
      · intro h
        show (((s.workers.set w QueuePc.signal).countP QueuePc.isExited : Nat) : Int) + _ = _
        rw [h4]
        exact hexit h
      · show 5 * s.pending.length +
          ((s.workers.set w QueuePc.signal).map QueuePc.weight).sum + _ < _
        simp only [QueueExec.measure]
        omega
  · have ht := Option.some.inj hstep
    subst ht
    have h1 := hitem QueuePc.get
    have h2 := ccnt QueuePc.get
    have h3 := csig QueuePc.get
    have h4 := cex QueuePc.get
    have h5 := csum QueuePc.get
    simp only [QueuePc.item, QueuePc.isCount, QueuePc.isSignal, QueuePc.isExited,
      QueuePc.weight, Option.toList, List.nil_append, Bool.false_eq_true, if_false, if_true,
      add_zero] at h1 h2 h3 h4 h5
    refine ⟨⟨htodo, rfl, hq, ?_, ?_, hlb, hub, ?_, hmwg, hret⟩, ?_⟩
    · show (s.calls ++ ((s.workers.set w QueuePc.get).filterMap QueuePc.item ++
        s.pending)).Perm items
      exact ((h1.symm.append_right _).append_left _).trans hacc
    · show s.done + 1 + (s.workers.set w QueuePc.get).countP QueuePc.isCount =
        s.calls.length
      omega
    · show (((s.workers.set w QueuePc.get).countP QueuePc.isSignal : Nat) : Int) + _ =
        if s.done + 1 = s.todo then 1 else 0
      rw [if_neg heq, h3]
      rw [if_neg (by omega)] at hsig
      exact hsig
    · intro hown
      obtain ⟨hlen, hopen, hexit⟩ := hown
      refine ⟨⟨?_, hopen, ?_⟩, ?_⟩
      · simp only [List.length_set, hlen]
      · intro h
        show (((s.workers.set w QueuePc.get).countP QueuePc.isExited : Nat) : Int) + _ = _
        rw [h4]
        exact hexit h
      · show 5 * s.pending.length +
          ((s.workers.set w QueuePc.get).map QueuePc.weight).sum + _ < _
        simp only [QueueExec.measure]
        omega

theorem QueueExec.queue_step_signal (items : List ι) (W : Nat) (s t : QueueExec ι) (w : Nat)
    (hinv : QueueInv items s) (hw : s.workers[w]? = some QueuePc.signal)
    (hstep : s.step (QueueLabel.worker w) = some t) :
    QueueInv items t ∧ (QueueOwnInv W s → QueueOwnInv W t ∧ t.measure < s.measure) := by
  obtain ⟨htodo, hpanic, hq, hacc, hdone, hlb, hub, hsig, hmwg, hret⟩ := hinv
  have h1 := List.filterMap_set_perm QueuePc.item s.workers w _ QueuePc.exited hw
  have h2 := List.countP_set_of_getElem? QueuePc.isCount s.workers w _ QueuePc.exited hw
  have h3 := List.countP_set_of_getElem? QueuePc.isSignal s.workers w _ QueuePc.exited hw
  have h4 := List.countP_set_of_getElem? QueuePc.isExited s.workers w _ QueuePc.exited hw
  have h5 := List.sum_map_set_of_getElem? QueuePc.weight s.workers w _ QueuePc.exited hw
  simp only [QueuePc.item, QueuePc.isCount, QueuePc.isSignal, QueuePc.isExited,
    QueuePc.weight, Option.toList, List.nil_append, Bool.false_eq_true, if_false, if_true,
    add_zero] at h1 h2 h3 h4 h5
  have hone : s.wg.counter = 1 := by
    split_ifs at hsig <;> omega
  have hwait : s.main = MainPc.wait := by
    by_contra hm
    have := hmwg hm
    omega
  have hdn : s.wg.Done = .ok ⟨s.wg.counter + -1⟩ := by
    unfold WaitGroup.Done WaitGroup.Add
    rw [if_neg (by omega)]
  simp only [QueueExec.step, hpanic, Option.isSome_none, Bool.false_eq_true, if_false, hw,
    hdn] at hstep
  have ht := Option.some.inj hstep
  subst ht
  refine ⟨⟨htodo, rfl, hq, ?_, ?_, ?_, ?_, ?_, ?_, ?_⟩, ?_⟩
  · show (s.calls ++ ((s.workers.set w QueuePc.exited).filterMap QueuePc.item ++
      s.pending)).Perm items
    exact ((h1.symm.append_right _).append_left _).trans hacc
  · show s.done + (s.workers.set w QueuePc.exited).countP QueuePc.isCount = _
    rw [h2]
    exact hdone
  · show 0 ≤ s.wg.counter + -1
    omega
  · show s.wg.counter + -1 ≤ 1
    omega
  · show (((s.workers.set w QueuePc.exited).countP QueuePc.isSignal : Nat) : Int) +
      (1 - (s.wg.counter + -1)) = _
    rw [← hsig]
    omega
  · intro hm
    exact absurd hwait hm
  · intro hm
    exact hret hm
  · intro hown
    obtain ⟨hlen, hopen, hexit⟩ := hown
    refine ⟨⟨?_, hopen, ?_⟩, ?_⟩
    · simp only [List.length_set, hlen]
    · intro h
      have := hexit h
      show (((s.workers.set w QueuePc.exited).countP QueuePc.isExited : Nat) : Int) +
        (s.wg.counter + -1) = 1
      rw [h4]
      push_cast
      omega
    · show 5 * s.pending.length +
        ((s.workers.set w QueuePc.exited).map QueuePc.weight).sum + _ < _
      simp only [QueueExec.measure]
      omega

theorem QueueExec.queue_step_getError (items : List ι) (s t : QueueExec ι) (w : Nat)
    (hinv : QueueInv items s) (hstep : s.step (QueueLabel.getError w) = some t) :
    QueueInv items t := by
  obtain ⟨htodo, hpanic, hq, hacc, hdone, hlb, hub, hsig, hmwg, hret⟩ := hinv
  simp only [QueueExec.step, hpanic, Option.isSome_none, Bool.false_eq_true, if_false]
    at hstep
  cases hw : s.workers[w]? with
  | none => simp [hw] at hstep
  | some pc =>
    cases pc with
    | get =>
      simp only [hw] at hstep
      have ht := Option.some.inj hstep
      subst ht
      have h1 := List.filterMap_set_perm QueuePc.item s.workers w _ QueuePc.exited hw
      have h2 := List.countP_set_of_getElem? QueuePc.isCount s.workers w _ QueuePc.exited hw
      have h3 := List.countP_set_of_getElem? QueuePc.isSignal s.workers w _ QueuePc.exited hw
      simp only [QueuePc.item, QueuePc.isCount, QueuePc.isSignal, Option.toList,
        List.nil_append, Bool.false_eq_true, if_false, add_zero] at h1 h2 h3
      refine ⟨htodo, rfl, hq, ?_, ?_, hlb, hub, ?_, hmwg, hret⟩
      · show (s.calls ++ ((s.workers.set w QueuePc.exited).filterMap QueuePc.item ++
          s.pending)).Perm items
        exact ((h1.symm.append_right _).append_left _).trans hacc
      · show s.done + (s.workers.set w QueuePc.exited).countP QueuePc.isCount = _
        rw [h2]
        exact hdone
      · show (((s.workers.set w QueuePc.exited).countP QueuePc.isSignal : Nat) : Int) + _ = _
        rw [h3]
        exact hsig
    | call x => simp [hw] at hstep
    | count => simp [hw] at hstep
    | signal => simp [hw] at hstep
    | exited => simp [hw] at hstep

theorem QueueExec.queue_step_otherDispose (items : List ι) (s t : QueueExec ι)
    (hinv : QueueInv items s) (hstep : s.step QueueLabel.otherDispose = some t) :
    QueueInv items t := by
  obtain ⟨htodo, hpanic, hq, hacc, hdone, hlb, hub, hsig, hmwg, hret⟩ := hinv
  obtain ⟨rb, hrb⟩ := Option.isSome_iff_exists.mp hq
  have hpend : s.pending = rb.items := by simp only [QueueExec.pending, hrb]
  simp only [QueueExec.step, hrb] at hstep
  have ht := Option.some.inj hstep
  subst ht
  refine ⟨htodo, hpanic, rfl, ?_, hdone, hlb, hub, hsig, hmwg, ?_⟩
  · show (s.calls ++ (s.workers.filterMap QueuePc.item ++ rb.items)).Perm items
    rw [← hpend]
    exact hacc
  · intro _
    rfl

theorem QueueExec.queue_step_main (items : List ι) (W : Nat) (s t : QueueExec ι)
    (hinv : QueueInv items s) (hstep : s.step QueueLabel.main = some t) :
    QueueInv items t ∧ (QueueOwnInv W s → QueueOwnInv W t ∧ t.measure < s.measure) := by
  obtain ⟨htodo, hpanic, hq, hacc, hdone, hlb, hub, hsig, hmwg, hret⟩ := hinv
  obtain ⟨rb, hrb⟩ := Option.isSome_iff_exists.mp hq
  have hpend : s.pending = rb.items := by simp only [QueueExec.pending, hrb]
  simp only [QueueExec.step, hpanic, Option.isSome_none, Bool.false_eq_true, if_false]
    at hstep
  cases hm : s.main with
  | returned => simp [hm] at hstep
  | wait =>
    simp only [hm] at hstep
    split_ifs at hstep with hrel
    have ht := Option.some.inj hstep
    subst ht
    have hzero : s.wg.counter = 0 := by
      simpa [WaitGroup.released] using hrel
    refine ⟨⟨htodo, rfl, hq, hacc, hdone, hlb, hub, hsig, fun _ => hzero, ?_⟩, ?_⟩
    · intro h
      exact MainPc.noConfusion h
    · intro hown
      obtain ⟨hlen, hopen, hexit⟩ := hown
      refine ⟨⟨hlen, ?_, hexit⟩, ?_⟩
      · intro _
        apply hopen
        rw [hm]
        intro h
        exact MainPc.noConfusion h
      · show 5 * s.pending.length + (s.workers.map QueuePc.weight).sum +
          MainPc.dispose.weight < _
        simp only [QueueExec.measure, hm, MainPc.weight]
        omega
  | dispose =>
    simp only [hm, hrb] at hstep
    have ht := Option.some.inj hstep
    subst ht
    have hzero : s.wg.counter = 0 := hmwg (by rw [hm]; intro h; exact MainPc.noConfusion h)
    refine ⟨⟨htodo, rfl, rfl, ?_, hdone, hlb, hub, hsig, fun _ => hzero, ?_⟩, ?_⟩
    · show (s.calls ++ (s.workers.filterMap QueuePc.item ++ rb.items)).Perm items
      rw [← hpend]
      exact hacc
    · intro _
      rfl
    · intro hown
      obtain ⟨hlen, hopen, hexit⟩ := hown
      refine ⟨⟨hlen, ?_, ?_⟩, ?_⟩
      · intro h
        exact absurd rfl h
      · intro h
        exact Bool.noConfusion h
      · show 5 * rb.items.length + (s.workers.map QueuePc.weight).sum +
          MainPc.returned.weight < _
        simp only [QueueExec.measure, hm, hpend, MainPc.weight]
        omega

/-- Every step keeps the invariant of the queue executor; a step of the
executor itself also keeps the second invariant and uses up measure. -/
theorem QueueExec.queue_step_inv (items : List ι) (W : Nat) (hN : items.length < 2 ^ 64)
    (s t : QueueExec ι) (l : QueueLabel)
    (hinv : QueueInv items s) (hstep : s.step l = some t) :
    QueueInv items t ∧
      (l.own = true → QueueOwnInv W s → QueueOwnInv W t ∧ t.measure < s.measure) := by
  cases l with
  | main =>
    have := QueueExec.queue_step_main items W s t hinv hstep
    exact ⟨this.1, fun _ => this.2⟩
  | getError w =>
    refine ⟨QueueExec.queue_step_getError items s t w hinv hstep, ?_⟩
    intro h
    exact Bool.noConfusion h
  | otherDispose =>
    refine ⟨QueueExec.queue_step_otherDispose items s t hinv hstep, ?_⟩
    intro h
    exact Bool.noConfusion h
  | worker w =>
    cases hw : s.workers[w]? with
    | none =>
      exfalso
      simp [QueueExec.step, hinv.no_panic, hw] at hstep
    | some pc =>
      cases pc with
      | get =>
        have := QueueExec.queue_step_get items W s t w hinv hw hstep
        exact ⟨this.1, fun _ => this.2⟩
      | call x =>
        have := QueueExec.queue_step_call items W s t w x hinv hw hstep
        exact ⟨this.1, fun _ => this.2⟩
      | count =>
        have := QueueExec.queue_step_count items W hN s t w hinv hw hstep
        exact ⟨this.1, fun _ => this.2⟩
      | signal =>
        have := QueueExec.queue_step_signal items W s t w hinv hw hstep
        exact ⟨this.1, fun _ => this.2⟩
      | exited =>
        exfalso
        simp [QueueExec.step, hinv.no_panic, hw] at hstep

theorem QueueExec.queue_spawn_inv (items : List ι) (d : Bool) (W : Nat) (hne : items ≠ []) :
    QueueInv items (QueueExec.spawn ⟨items, d⟩ items.length 0 ⟨1⟩ W) := by
  have hlen : items.length ≠ 0 := fun h => hne (List.length_eq_zero.mp h)
  have hfm : (List.replicate W (QueuePc.get : QueuePc ι)).filterMap QueuePc.item = [] :=
    List.filterMap_replicate_of_none rfl
  have hcnt : (List.replicate W (QueuePc.get : QueuePc ι)).countP QueuePc.isCount = 0 := by
    rw [List.countP_replicate]
    rfl
  have hsig : (List.replicate W (QueuePc.get : QueuePc ι)).countP QueuePc.isSignal = 0 := by
    rw [List.countP_replicate]
    rfl
  refine ⟨rfl, rfl, rfl, ?_, ?_, ?_, ?_, ?_, ?_, ?_⟩
  · show ([] ++ ((List.replicate W (QueuePc.get : QueuePc ι)).filterMap QueuePc.item ++
      items)).Perm items
    rw [hfm]
    exact List.Perm.refl _
  · show 0 + (List.replicate W (QueuePc.get : QueuePc ι)).countP QueuePc.isCount = 0
    omega
  · show (0 : Int) ≤ 1
    omega
  · show (1 : Int) ≤ 1
    omega
  · show (((List.replicate W (QueuePc.get : QueuePc ι)).countP QueuePc.isSignal : Nat) : Int)
      + (1 - 1) = if 0 = items.length then 1 else 0
    rw [if_neg (fun h => hlen h.symm), hsig]
    rfl
  · intro h
    exact absurd rfl h
  · intro h
    exact MainPc.noConfusion h

theorem QueueExec.queue_spawn_own_inv (items : List ι) (W : Nat) :
    QueueOwnInv W (QueueExec.spawn ⟨items, false⟩ items.length 0 ⟨1⟩ W) := by
  have hex : (List.replicate W (QueuePc.get : QueuePc ι)).countP QueuePc.isExited = 0 := by
    rw [List.countP_replicate]
    rfl
  refine ⟨?_, fun _ => rfl, ?_⟩
  · simp [QueueExec.spawn]
  · intro _
    show (((List.replicate W (QueuePc.get : QueuePc ι)).countP QueuePc.isExited : Nat) : Int)
      + 1 = 1
    rw [hex]
    rfl

/-- Every schedule keeps the invariant of the queue executor. -/
theorem QueueExec.queue_run_inv (items : List ι) (hN : items.length < 2 ^ 64)
    (sched : List QueueLabel) :
    ∀ s t : QueueExec ι, QueueInv items s → s.run sched = some t → QueueInv items t := by
  induction sched with
  | nil =>
    intro s t hinv hrun
    have := Option.some.inj hrun
    subst this
    exact hinv
  | cons l ls ih =>
    intro s t hinv hrun
    simp only [QueueExec.run] at hrun
    cases hstep : s.step l with
    | none => simp [hstep] at hrun
    | some u =>
      rw [hstep] at hrun
      exact ih u t (QueueExec.queue_step_inv items 0 hN s u l hinv hstep).1 hrun

/-- A schedule of the executor's own steps keeps both invariants and is no
longer than the measure it uses up. -/
theorem QueueExec.queue_run_own_inv (items : List ι) (W : Nat) (hN : items.length < 2 ^ 64)
    (sched : List QueueLabel) :
    ∀ s t : QueueExec ι, (∀ l ∈ sched, QueueLabel.own l = true) → QueueInv items s →
      QueueOwnInv W s → s.run sched = some t →
      QueueInv items t ∧ QueueOwnInv W t ∧ t.measure + sched.length ≤ s.measure := by
  induction sched with
  | nil =>
    intro s t _ hinv hown hrun
    have := Option.some.inj hrun
    subst this
    exact ⟨hinv, hown, Nat.le_refl _⟩
  | cons l ls ih =>
    intro s t hall hinv hown hrun
    simp only [QueueExec.run] at hrun
    cases hstep : s.step l with
    | none => simp [hstep] at hrun
    | some u =>
      rw [hstep] at hrun
      obtain ⟨hu, hrest⟩ := QueueExec.queue_step_inv items W hN s u l hinv hstep
      obtain ⟨huo, hlt⟩ := hrest (hall l (List.mem_cons_self l ls)) hown
      obtain ⟨ht, hto, hle⟩ :=
        ih u t (fun k hk => hall k (List.mem_cons_of_mem l hk)) hu huo hrun
      refine ⟨ht, hto, ?_⟩
      simp only [List.length_cons]
      omega

/-- Once the caller has returned, every pre-loaded item has been passed to `fn`
exactly once, nothing is pending and the queue is disposed. -/
theorem QueueExec.returned_all_done (items : List ι) (s : QueueExec ι)
    (hinv : QueueInv items s) (hm : s.main = MainPc.returned) :
    s.calls.Perm items ∧ s.disposed = true ∧ s.pending = [] ∧ s.done = items.length := by
  obtain ⟨htodo, hpanic, hq, hacc, hdone, hlb, hub, hsig, hmwg, hret⟩ := hinv
  have hzero : s.wg.counter = 0 := hmwg (by rw [hm]; intro h; exact MainPc.noConfusion h)
  have hd : s.done = s.todo := by
    by_contra hne
    rw [if_neg hne] at hsig
    omega
  have hlen := hacc.length_eq
  simp only [List.length_append] at hlen
  have hfm : s.workers.filterMap QueuePc.item = [] := List.length_eq_zero.mp (by omega)
  have hpend : s.pending = [] := List.length_eq_zero.mp (by omega)
  rw [hfm, hpend] at hacc
  simp only [List.append_nil] at hacc
  exact ⟨hacc, hret hm, hpend, by omega⟩

/-- A worker that holds an item, or has a count or a signal to deliver, can
always move. -/
theorem QueueExec.busy_can_step (s : QueueExec ι) (w : Nat) (pc : QueuePc ι)
    (hpanic : s.panic = none) (hw : s.workers[w]? = some pc) (hb : pc.busy = true) :
    ∃ t, s.step (QueueLabel.worker w) = some t := by
  cases pc with
  | get => exact Bool.noConfusion hb
  | exited => exact Bool.noConfusion hb
  | call x =>
    simp only [QueueExec.step, hpanic, Option.isSome_none, Bool.false_eq_true, if_false, hw]
    exact ⟨_, rfl⟩
  | count =>
    simp only [QueueExec.step, hpanic, Option.isSome_none, Bool.false_eq_true, if_false, hw]
    split_ifs <;> exact ⟨_, rfl⟩
  | signal =>
    simp only [QueueExec.step, hpanic, Option.isSome_none, Bool.false_eq_true, if_false, hw]
    split <;> exact ⟨_, rfl⟩

/-- While the caller has not returned and nobody else touches the queue, the
executor with at least one worker can take a step of its own. -/
theorem QueueExec.queue_progress (items : List ι) (W : Nat) (hW : 0 < W) (s : QueueExec ι)
    (hinv : QueueInv items s) (hown : QueueOwnInv W s) (hm : s.main ≠ MainPc.returned) :
    ∃ l t, QueueLabel.own l = true ∧ s.step l = some t := by
  obtain ⟨htodo, hpanic, hq, hacc, hdone, hlb, hub, hsig, hmwg, hret⟩ := hinv
  obtain ⟨hlen, hopen, hexit⟩ := hown
  obtain ⟨rb, hrb⟩ := Option.isSome_iff_exists.mp hq
  have hpend : s.pending = rb.items := by simp only [QueueExec.pending, hrb]
  have hdisp : rb.disposed = false := by
    have := hopen hm
    simpa only [QueueExec.disposed, hrb] using this
  cases hmain : s.main with
  | returned => exact absurd hmain hm
  | dispose =>
    have hex : ∃ t, s.step QueueLabel.main = some t := by
      simp only [QueueExec.step, hpanic, Option.isSome_none, Bool.false_eq_true, if_false,
        hmain, hrb]
      exact ⟨_, rfl⟩
    obtain ⟨t, ht⟩ := hex
    exact ⟨QueueLabel.main, t, rfl, ht⟩
  | wait =>
    by_cases hz : s.wg.counter = 0
    · have hex : ∃ t, s.step QueueLabel.main = some t := by
        simp only [QueueExec.step, hpanic, Option.isSome_none, Bool.false_eq_true, if_false,
          hmain, WaitGroup.released, hz, decide_True, if_true]
        exact ⟨_, rfl⟩
      obtain ⟨t, ht⟩ := hex
      exact ⟨QueueLabel.main, t, rfl, ht⟩
    · have hone : s.wg.counter = 1 := by omega
      by_cases hbusy : ∃ pc ∈ s.workers, QueuePc.busy pc = true
      · obtain ⟨pc, hmem, hb⟩ := hbusy
        obtain ⟨w, hw⟩ := List.mem_iff_getElem?.mp hmem
        obtain ⟨t, ht⟩ := QueueExec.busy_can_step s w pc hpanic hw hb
        exact ⟨QueueLabel.worker w, t, rfl, ht⟩
      · have hidle : ∀ pc ∈ s.workers, QueuePc.busy pc = false := by
          intro pc hmem
          cases hb : QueuePc.busy pc
          · rfl
          · exact absurd ⟨pc, hmem, hb⟩ hbusy
        have hfm : s.workers.filterMap QueuePc.item = [] := by
          rw [List.filterMap_eq_nil_iff]
          intro pc hmem
          have := hidle pc hmem
          cases pc <;> first | rfl | exact Bool.noConfusion this
        have hcnt : s.workers.countP QueuePc.isCount = 0 := by
          rw [List.countP_eq_zero]
          intro pc hmem
          have := hidle pc hmem
          cases pc <;> first | exact Bool.noConfusion | exact Bool.noConfusion this
        have hsg : s.workers.countP QueuePc.isSignal = 0 := by
          rw [List.countP_eq_zero]
          intro pc hmem
          have := hidle pc hmem
          cases pc <;> first | exact Bool.noConfusion | exact Bool.noConfusion this
        have hex : s.workers.countP QueuePc.isExited = 0 := by
          have := hexit (by simpa only [QueueExec.disposed, hrb] using hdisp)
          omega
        have hw0 : 0 < s.workers.length := by omega
        have hw : s.workers[0]? = some s.workers[0] := List.getElem?_eq_getElem hw0
        have hmem : s.workers[0] ∈ s.workers := List.getElem_mem hw0
        have hget : s.workers[0] = QueuePc.get := by
          have h1 := hidle _ hmem
          have h2 := (List.countP_eq_zero.mp hex) _ hmem
          cases hpc : s.workers[0] with
          | get => rfl
          | call x => rw [hpc] at h1; exact Bool.noConfusion h1
          | count => rw [hpc] at h1; exact Bool.noConfusion h1
          | signal => rw [hpc] at h1; exact Bool.noConfusion h1
          | exited => rw [hpc] at h2; exact absurd rfl h2
        rw [hget] at hw
        have hnd : s.done ≠ s.todo := by
          intro heq
          rw [if_pos heq, hsg] at hsig
          omega
        have hl := hacc.length_eq
        rw [hfm, hpend, List.length_append, List.nil_append] at hl
        cases hi : rb.items with
        | nil =>
          rw [hi] at hl
          simp only [List.length_nil] at hl
          omega
        | cons x rest =>
          have hex : ∃ t, s.step (QueueLabel.worker 0) = some t := by
            simp only [QueueExec.step, hpanic, Option.isSome_none, Bool.false_eq_true,
              if_false, hw, hrb, RingBuffer.Get, hdisp, hi]
            exact ⟨_, rfl⟩
          obtain ⟨t, ht⟩ := hex
          exact ⟨QueueLabel.worker 0, t, rfl, ht⟩

/-- From every state the executor reaches on its own, with at least one
worker, some continuation of its own steps lets the caller return. -/
theorem QueueExec.queue_can_return (items : List ι) (W : Nat) (hW : 0 < W)
    (hN : items.length < 2 ^ 64) :
    ∀ (n : Nat) (s : QueueExec ι), s.measure ≤ n → QueueInv items s → QueueOwnInv W s →
      ∃ rest t, (∀ l ∈ rest, QueueLabel.own l = true) ∧ s.run rest = some t ∧
        t.main = MainPc.returned := by
  intro n
  induction n with
  | zero =>
    intro s hn hinv hown
    by_cases hm : s.main = MainPc.returned
    · exact ⟨[], s, fun l hl => absurd hl (List.not_mem_nil l), rfl, hm⟩
    · obtain ⟨l, t, hl, hstep⟩ := QueueExec.queue_progress items W hW s hinv hown hm
      have := ((QueueExec.queue_step_inv items W hN s t l hinv hstep).2 hl hown).2
      omega
  | succ n ih =>
    intro s hn hinv hown
    by_cases hm : s.main = MainPc.returned
    · exact ⟨[], s, fun l hl => absurd hl (List.not_mem_nil l), rfl, hm⟩
    · obtain ⟨l, t, hl, hstep⟩ := QueueExec.queue_progress items W hW s hinv hown hm
      obtain ⟨ht, hrest⟩ := QueueExec.queue_step_inv items W hN s t l hinv hstep
      obtain ⟨hto, hlt⟩ := hrest hl hown
      obtain ⟨rest, u, hall, hrun, hu⟩ := ih t (by omega) ht hto
      refine ⟨l :: rest, u, ?_, ?_, hu⟩
      · intro k hk
        rcases List.mem_cons.mp hk with h | h
        · rw [h]
          exact hl
        · exact hall k h
      · simp only [QueueExec.run, hstep]
        exact hrun

/-- C5: a queue pre-loaded with `N > 0` items (`N` fits `uint64`), not yet
disposed, and `runtime.NumCPU() = p ≥ 1`.  Under every interleaving, also when
pulls fail or another actor disposes the queue, nothing panics, and once the
caller has returned every pre-loaded item has been passed to `fn` exactly
once (the calls are a permutation of the items), nothing is pending and the
queue is disposed.  When `p ≥ 2` and only the executor touches the queue,
every schedule is at most `5N + min(N, p-1) + 2` steps long and can be
continued until the caller returns. -/
theorem executeInParallel_exactly_once (items : List ι) (p : Int) (hne : items ≠ [])
    (hN : items.length < 2 ^ 64) (hp : 1 ≤ p) (hp63 : p < 2 ^ 63) :
    (∀ (sched : List QueueLabel) (s : QueueExec ι),
      (executeInParallel (some ⟨items, false⟩) p).run sched = some s →
        s.panic = none ∧
        (s.main = MainPc.returned →
          s.calls.Perm items ∧ s.disposed = true ∧ s.pending = [])) ∧
    (2 ≤ p → ∀ (sched : List QueueLabel) (s : QueueExec ι),
      (∀ l ∈ sched, QueueLabel.own l = true) →
      (executeInParallel (some ⟨items, false⟩) p).run sched = some s →
        sched.length ≤ 5 * items.length + min items.length (p - 1).toNat + 2 ∧
        ∃ rest t, (∀ l ∈ rest, QueueLabel.own l = true) ∧ s.run rest = some t ∧
          t.main = MainPc.returned) := by
  rw [executeInParallel_eq_spawn items false p hne hp hp63]
  constructor
  · intro sched s hrun
    have hinv := QueueExec.queue_run_inv items hN sched _ s
      (QueueExec.queue_spawn_inv items false _ hne) hrun
    refine ⟨hinv.no_panic, fun hm => ?_⟩
    obtain ⟨h1, h2, h3, _⟩ := QueueExec.returned_all_done items s hinv hm
    exact ⟨h1, h2, h3⟩
  · intro hp2 sched s hall hrun
    have hpos : 0 < items.length := List.length_pos.mpr hne
    have hW : 0 < min items.length (p - 1).toNat := by
      apply Nat.lt_min.mpr
      constructor <;> omega
    obtain ⟨hinv, hown, hle⟩ := QueueExec.queue_run_own_inv items _ hN sched _ s hall
      (QueueExec.queue_spawn_inv items false _ hne) (QueueExec.queue_spawn_own_inv items _) hrun
    refine ⟨?_, QueueExec.queue_can_return items _ hW hN _ s (Nat.le_refl _) hinv hown⟩
    have hm : (QueueExec.spawn ⟨items, false⟩ items.length 0 ⟨1⟩
        (min items.length (p - 1).toNat)).measure =
        5 * items.length + min items.length (p - 1).toNat + 2 := by
      simp only [QueueExec.measure, QueueExec.spawn, QueueExec.pending,
        List.map_replicate, List.sum_replicate, QueuePc.weight, MainPc.weight]
      simp
    omega

/-- C5 on three items with `runtime.NumCPU() = 3` (two workers): an
interleaving after which the caller has returned, with item 20 processed
first. -/
theorem executeInParallel_exactly_once_witness :
    ((([10, 20, 30] : List Nat) ≠ []) ∧ ([10, 20, 30] : List Nat).length < 2 ^ 64 ∧
      (1 : Int) ≤ 3 ∧ (3 : Int) < 2 ^ 63) ∧
    ((executeInParallel (some ⟨[10, 20, 30], false⟩) 3).run
      [.worker 0, .worker 1, .worker 1, .worker 0, .worker 1, .worker 1, .worker 0,
        .worker 1, .worker 1, .worker 1, .main, .main, .worker 0]).map
      (fun s => (s.calls, s.workers, s.main, s.disposed, s.done)) =
      some ([20, 10, 30], [.exited, .exited], .returned, true, 3) ∧
    ((∀ (sched : List QueueLabel) (s : QueueExec Nat),
      (executeInParallel (some ⟨[10, 20, 30], false⟩) 3).run sched = some s →
        s.panic = none ∧
        (s.main = MainPc.returned →
          s.calls.Perm [10, 20, 30] ∧ s.disposed = true ∧ s.pending = [])) ∧
    ((2 : Int) ≤ 3 → ∀ (sched : List QueueLabel) (s : QueueExec Nat),
      (∀ l ∈ sched, QueueLabel.own l = true) →
      (executeInParallel (some ⟨[10, 20, 30], false⟩) 3).run sched = some s →
        sched.length ≤ 5 * ([10, 20, 30] : List Nat).length +
          min ([10, 20, 30] : List Nat).length ((3 : Int) - 1).toNat + 2 ∧
        ∃ rest t, (∀ l ∈ rest, QueueLabel.own l = true) ∧ s.run rest = some t ∧
          t.main = MainPc.returned)) :=
  ⟨⟨by decide, by decide, by decide, by decide⟩, by decide,
    executeInParallel_exactly_once [10, 20, 30] 3 (by decide) (by decide) (by decide)
      (by decide)⟩

end QueueTheorems

/-! ## Theorems: worker counts and empty work sources -/

section CountTheorems

variable {ι : Type}

/-- The number of workers `executeInParallel` starts on a non-empty queue. -/
theorem executeInParallel_worker_count (items : List ι) (d : Bool) (p : Int)
    (hne : items ≠ []) (hp : 1 ≤ p) (hp63 : p < 2 ^ 63) :
    (executeInParallel (some ⟨items, d⟩) p).workers.length =
      min items.length (p - 1).toNat := by
  rw [executeInParallel_eq_spawn items d p hne hp hp63]
  simp [QueueExec.spawn]

/-- With no worker and the wait group at 1 the caller waits for ever, whatever
is scheduled. -/
theorem QueueExec.stuck_without_workers (sched : List QueueLabel) :
    ∀ s t : QueueExec ι, s.workers = [] → s.wg.counter = 1 → s.main = MainPc.wait →
      s.calls = [] → s.run sched = some t →
      t.workers = [] ∧ t.wg.counter = 1 ∧ t.main = MainPc.wait ∧ t.calls = [] := by
  induction sched with
  | nil =>
    intro s t hw hwg hm hc hrun
    have := Option.some.inj hrun
    subst this
    exact ⟨hw, hwg, hm, hc⟩
  | cons l ls ih =>
    intro s t hw hwg hm hc hrun
    simp only [QueueExec.run] at hrun
    cases hstep : s.step l with
    | none => simp [hstep] at hrun
    | some u =>
      rw [hstep] at hrun
      have hu : u.workers = [] ∧ u.wg.counter = 1 ∧ u.main = MainPc.wait ∧ u.calls = [] := by
        cases l with
        | worker w =>
          exfalso
          simp only [QueueExec.step, hw, List.getElem?_nil] at hstep
          split_ifs at hstep
        | getError w =>
          exfalso
          simp only [QueueExec.step, hw, List.getElem?_nil] at hstep
          split_ifs at hstep
        | main =>
          exfalso
          simp only [QueueExec.step, hm, WaitGroup.released, hwg] at hstep
          split_ifs at hstep with h1 h2
          exact absurd h2 (by decide)
        | otherDispose =>
          simp only [QueueExec.step] at hstep
          split at hstep
          · exact Option.noConfusion hstep
          · have := Option.some.inj hstep
            subst this
            exact ⟨hw, hwg, hm, hc⟩
      exact ih u t hu.1 hu.2.1 hu.2.2.1 hu.2.2.2 hrun

/-- C6, where the code departs from it: with `runtime.NumCPU() = 1` and one
pending item `executeInParallel` starts `min(1, 1 - 1) = 0` workers, not the
`min(1, max(1, 1 - 1)) = 1` of the claim, and then the caller never leaves
`wg.Wait()` and `fn` is never called; with 10 items and `NumCPU() = 5` it
starts 4 workers, as the claim says. -/
theorem executeInParallel_single_cpu_starts_no_worker :
    (executeInParallel (some (⟨[7], false⟩ : RingBuffer Nat)) 1).workers.length = 0 ∧
    min 1 (max 1 (1 - 1)) = 1 ∧
    (∀ (sched : List QueueLabel) (s : QueueExec Nat),
      (executeInParallel (some ⟨[7], false⟩) 1).run sched = some s →
        s.main = MainPc.wait ∧ s.calls = []) ∧
    (executeInParallel (some (⟨List.range 10, false⟩ : RingBuffer Nat)) 5).workers.length
      = 4 := by
  refine ⟨by decide, by decide, ?_, by decide⟩
  intro sched s hrun
  have h := QueueExec.stuck_without_workers sched
    (executeInParallel (some ⟨[7], false⟩) 1) s (by decide) (by decide) (by decide)
    (by decide) hrun
  exact ⟨h.2.2.1, h.2.2.2⟩

/-- C8: `executeInParallel` on a nil queue or on a queue with nothing pending,
and `executeInterfacesInParallel` on an empty slice, are back at once: the
caller has returned, no worker exists, `fn` has not been called, nothing has
panicked, the queue (if any) is as it was, disposed or not, and no goroutine
of the call has a step left to take. -/
theorem empty_work_source_is_noop (p : Int) (d : Bool) :
    (executeInParallel (none : Option (RingBuffer ι)) p = QueueExec.stopped none none) ∧
    (executeInParallel (some (⟨[], d⟩ : RingBuffer ι)) p =
      QueueExec.stopped (some ⟨[], d⟩) none) ∧
    (executeInterfacesInParallel ([] : List ι) p = SliceExec.stopped [] none) ∧
    (∀ q : Option (RingBuffer ι),
      (QueueExec.stopped q none).main = MainPc.returned ∧
      (QueueExec.stopped q none).workers = [] ∧
      (QueueExec.stopped q none).calls = [] ∧
      (QueueExec.stopped q none).panic = none ∧
      (QueueExec.stopped q none).q = q ∧
      ∀ l, QueueLabel.own l = true → (QueueExec.stopped q none).step l = none) ∧
    ((SliceExec.stopped ([] : List ι) none).main = MainPc.returned ∧
      (SliceExec.stopped ([] : List ι) none).workers = [] ∧
      (SliceExec.stopped ([] : List ι) none).calls = [] ∧
      (SliceExec.stopped ([] : List ι) none).panic = none ∧
      ∀ l, (SliceExec.stopped ([] : List ι) none).step l = none) := by
  refine ⟨rfl, rfl, rfl, ?_, rfl, rfl, rfl, rfl, ?_⟩
  · intro q
    refine ⟨rfl, rfl, rfl, rfl, rfl, ?_⟩
    intro l hl
    cases l with
    | worker w => rfl
    | main => rfl
    | getError w => exact Bool.noConfusion hl
    | otherDispose => exact Bool.noConfusion hl
  · intro l
    cases l with
    | worker w => rfl
    | main => rfl

end CountTheorems

/-! ## Theorems: actions, bounds and frames -/

section ActionBounds

variable {κ ν : Type}

/-- An assignment through a slice fails exactly outside `[0, len)`, with the
index panic. -/
theorem Mem.assign_error {α : Type} (m : Mem α) (s : Slice) (i : Int) (v : α)
    (h : ¬ (0 ≤ i ∧ i < (s.len : Int))) : m.assign s i v = .error Panic.indexOutOfRange := by
  unfold Mem.assign
  rw [if_neg h]

/-- C11: in every state an insertAction built by `newInsertAction(K)` goes
through, `addNode(i, n)` succeeds if and only if `0 ≤ i < len(K)`, and then
keeps the action struct; for any other index it panics with index out of
range, which yields no new state: nothing has been written, so `nodes()` and
`keys()` read as before. -/
theorem insertAction_addNode_in_range_iff [Inhabited κ] (h0 h : Heap κ ν) (K : Slice)
    (ia : insertAction) (i : Int) (n : Option ν) (hr : InsertReach h0 K h ia) :
    ((∃ r, ia.addNode h i n = .ok r) ↔ (0 ≤ i ∧ i < (K.len : Int))) ∧
    ((0 ≤ i ∧ i < (K.len : Int)) → ∃ h1, ia.addNode h i n = .ok (h1, ia)) ∧
    (¬ (0 ≤ i ∧ i < (K.len : Int)) → ia.addNode h i n = .error Panic.indexOutOfRange) := by
  obtain ⟨hv, hlen⟩ := hr.ns_valid
  have hok : (0 ≤ i ∧ i < (K.len : Int)) → ∃ h1, ia.addNode h i n = .ok (h1, ia) := by
    intro hi
    obtain ⟨h1, hh, _⟩ := insertAction.addNode_frame h ia i n hv hi.1 (by rw [hlen]; exact hi.2)
    exact ⟨h1, hh⟩
  have herr : ¬ (0 ≤ i ∧ i < (K.len : Int)) →
      ia.addNode h i n = .error Panic.indexOutOfRange := by
    intro hi
    unfold insertAction.addNode
    rw [Mem.assign_error h.nodes ia.ns i n (by rw [hlen]; exact hi)]
  refine ⟨⟨?_, ?_⟩, hok, herr⟩
  · intro hex
    by_contra hi
    obtain ⟨r, hr2⟩ := hex
    rw [herr hi] at hr2
    exact Except.noConfusion hr2
  · intro hi
    obtain ⟨h1, hh⟩ := hok hi
    exact ⟨_, hh⟩

/-- C11 on the action built from `[5, 3, 9]`: index 3 and index -1 panic, index
2 succeeds. -/
theorem insertAction_addNode_in_range_iff_witness :
    InsertReach (⟨[[5, 3, 9]], []⟩ : Heap Nat Nat) ⟨0, 0, 3⟩
      ⟨[[5, 3, 9], [5, 3, 9]], [[none, none, none]]⟩ ⟨⟨1, 0, 3⟩, ⟨1⟩, ⟨0, 0, 3⟩⟩ ∧
    (insertAction.addNode (⟨[[5, 3, 9], [5, 3, 9]], [[none, none, none]]⟩ : Heap Nat Nat)
      ⟨⟨1, 0, 3⟩, ⟨1⟩, ⟨0, 0, 3⟩⟩ (-1) (some 7)).toOption.isNone = true ∧
    (insertAction.addNode (⟨[[5, 3, 9], [5, 3, 9]], [[none, none, none]]⟩ : Heap Nat Nat)
      ⟨⟨1, 0, 3⟩, ⟨1⟩, ⟨0, 0, 3⟩⟩ 2 (some 7)).toOption.isSome = true ∧
    (((∃ r, insertAction.addNode (⟨[[5, 3, 9], [5, 3, 9]], [[none, none, none]]⟩ :
        Heap Nat Nat) ⟨⟨1, 0, 3⟩, ⟨1⟩, ⟨0, 0, 3⟩⟩ 3 (some 7) = .ok r) ↔
      ((0 : Int) ≤ 3 ∧ (3 : Int) < ((3 : Nat) : Int))) ∧
    (((0 : Int) ≤ 3 ∧ (3 : Int) < ((3 : Nat) : Int)) →
      ∃ h1, insertAction.addNode (⟨[[5, 3, 9], [5, 3, 9]], [[none, none, none]]⟩ :
        Heap Nat Nat) ⟨⟨1, 0, 3⟩, ⟨1⟩, ⟨0, 0, 3⟩⟩ 3 (some 7) =
          .ok (h1, ⟨⟨1, 0, 3⟩, ⟨1⟩, ⟨0, 0, 3⟩⟩)) ∧
    (¬ ((0 : Int) ≤ 3 ∧ (3 : Int) < ((3 : Nat) : Int)) →
      insertAction.addNode (⟨[[5, 3, 9], [5, 3, 9]], [[none, none, none]]⟩ : Heap Nat Nat)
        ⟨⟨1, 0, 3⟩, ⟨1⟩, ⟨0, 0, 3⟩⟩ 3 (some 7) = .error Panic.indexOutOfRange)) :=
  ⟨InsertReach.built rfl, rfl, rfl,
    insertAction_addNode_in_range_iff ⟨[[5, 3, 9]], []⟩
      ⟨[[5, 3, 9], [5, 3, 9]], [[none, none, none]]⟩ ⟨0, 0, 3⟩
      ⟨⟨1, 0, 3⟩, ⟨1⟩, ⟨0, 0, 3⟩⟩ 3 (some 7) (InsertReach.built rfl)⟩

theorem minUint64_foldl (cs : List Nat) :
    ∀ c : Nat,
      cs.foldl (fun min c => if c < min then c else min) c ∈ c :: cs ∧
      ∀ x ∈ c :: cs, cs.foldl (fun min c => if c < min then c else min) c ≤ x := by
  induction cs with
  | nil =>
    intro c
    simp
  | cons d ds ih =>
    intro c
    simp only [List.foldl_cons]
    obtain ⟨hmem, hle⟩ := ih (if d < c then d else c)
    generalize List.foldl (fun min c => if c < min then c else min)
      (if d < c then d else c) ds = r at hmem hle ⊢
    have h0 : r ≤ if d < c then d else c := hle _ (List.mem_cons_self _ _)
    constructor
    · rcases List.mem_cons.mp hmem with h | h
      · rw [h]
        split_ifs
        · exact List.mem_cons_of_mem _ (List.mem_cons_self _ _)
        · exact List.mem_cons_self _ _
      · exact List.mem_cons_of_mem _ (List.mem_cons_of_mem _ h)
    · intro x hx
      rcases List.mem_cons.mp hx with h | h
      · subst h
        split_ifs at h0 <;> omega
      · rcases List.mem_cons.mp h with h | h
        · subst h
          split_ifs at h0 <;> omega
        · exact hle x (List.mem_cons_of_mem _ h)

/-- C12: on every non-empty list `minUint64` returns a value, that value is an
element of the list, and it is less than or equal to every element. -/
theorem minUint64_is_smallest (choices : List Nat) (hne : choices ≠ []) :
    ∃ m, minUint64 choices = .ok m ∧ m ∈ choices ∧ ∀ c ∈ choices, m ≤ c := by
  cases choices with
  | nil => exact absurd rfl hne
  | cons c cs =>
    obtain ⟨hmem, hle⟩ := minUint64_foldl cs c
    exact ⟨_, rfl, hmem, hle⟩

/-- C12 on `[7, 3, 9, 3]`: the result is 3. -/
theorem minUint64_is_smallest_witness :
    ([7, 3, 9, 3] : List Nat) ≠ [] ∧ minUint64 [7, 3, 9, 3] = .ok 3 ∧
    ∃ m, minUint64 [7, 3, 9, 3] = .ok m ∧ m ∈ ([7, 3, 9, 3] : List Nat) ∧
      ∀ c ∈ ([7, 3, 9, 3] : List Nat), m ≤ c :=
  ⟨by decide, rfl, minUint64_is_smallest [7, 3, 9, 3] (by decide)⟩

/-- After `make` and `copy` the fresh array has exactly the length made,
whatever the source is. -/
theorem Mem.make_copy_valid {α : Type} (m : Mem α) (n : Nat) (src : Slice) (z : α) :
    (⟨m.length, 0, n⟩ : Slice).Valid ((m.make n z).1.copy (m.make n z).2 src) := by
  have hget : (m ++ [List.replicate n z]).getD m.length [] = List.replicate n z := by
    simp [List.getD_eq_getElem?_getD]
  have hlt : m.length < (m ++ [List.replicate n z]).length := by
    simp
  unfold Slice.Valid
  simp only [Mem.make, Mem.copy]
  rw [Mem.getD_set_self _ _ _ hlt, hget]
  simp only [List.length_append, List.length_take, List.length_drop, List.length_replicate]
  omega

/-- In every state an insertAction built from `K` goes through, its key slice
is the fresh copy made at construction and the key storage is as the
constructor left it. -/
theorem InsertReach.keys_kept [Inhabited κ] {h0 h : Heap κ ν} {K : Slice} {ia : insertAction}
    (hr : InsertReach h0 K h ia) :
    h.keys = (h0.keys.make K.len default).1.copy (h0.keys.make K.len default).2 K ∧
    ia.result = ⟨h0.keys.length, 0, K.len⟩ := by
  induction hr with
  | built hnew =>
    rw [newInsertAction_eq] at hnew
    injection hnew with hnew
    injection hnew with hh hia
    subst hh
    subst hia
    exact ⟨rfl, rfl⟩
  | addNode i n _ hok ih =>
    obtain ⟨hia, hkeys, _⟩ := insertAction.addNode_ok _ _ _ _ i n hok
    subst hia
    rw [hkeys]
    exact ih
  | complete _ hok ih =>
    obtain ⟨hres, _⟩ := insertAction.complete_ok _ _ hok
    rw [hres]
    exact ih

/-- C13: in every state an insertAction built by `newInsertAction(K)` from a
well-formed `K` goes through (right after construction, after any successful
`addNode` calls, after `complete()`), `keys()` has the length of `K` and reads
the values `K` had at construction. -/
theorem insertAction_keys_kept [Inhabited κ] (h0 h : Heap κ ν) (K : Slice)
    (ia : insertAction) (hr : InsertReach h0 K h ia) (hv : K.Valid h0.keys) :
    h.keys.read ia.keys = h0.keys.read K ∧ ia.keys.len = K.len := by
  obtain ⟨hkeys, hres⟩ := hr.keys_kept
  have hcopy := Mem.make_copy h0.keys K (default : κ) hv
  have hlen := Mem.length_read h0.keys K hv
  rw [hkeys, hcopy]
  simp only [insertAction.keys, hres]
  refine ⟨?_, trivial⟩
  have := Mem.read_fresh h0.keys (h0.keys.read K)
  rwa [hlen] at this

/-- C13 on `K = [5, 3, 9]` after `addNode(1, X)` and `complete()`: `keys()`
still reads `[5, 3, 9]`. -/
theorem insertAction_keys_kept_witness :
    (InsertReach (⟨[[5, 3, 9]], []⟩ : Heap Nat Nat) ⟨0, 0, 3⟩
      ⟨[[5, 3, 9], [5, 3, 9]], [[none, some 7, none]]⟩ ⟨⟨1, 0, 3⟩, ⟨0⟩, ⟨0, 0, 3⟩⟩ ∧
      (⟨0, 0, 3⟩ : Slice).Valid (⟨[[5, 3, 9]], []⟩ : Heap Nat Nat).keys) ∧
    (⟨[[5, 3, 9], [5, 3, 9]], [[none, some 7, none]]⟩ : Heap Nat Nat).keys.read
      (⟨⟨1, 0, 3⟩, ⟨0⟩, ⟨0, 0, 3⟩⟩ : insertAction).keys = [5, 3, 9] ∧
    ((⟨[[5, 3, 9], [5, 3, 9]], [[none, some 7, none]]⟩ : Heap Nat Nat).keys.read
      (⟨⟨1, 0, 3⟩, ⟨0⟩, ⟨0, 0, 3⟩⟩ : insertAction).keys =
        (⟨[[5, 3, 9]], []⟩ : Heap Nat Nat).keys.read ⟨0, 0, 3⟩ ∧
      (⟨⟨1, 0, 3⟩, ⟨0⟩, ⟨0, 0, 3⟩⟩ : insertAction).keys.len = (⟨0, 0, 3⟩ : Slice).len) :=
  ⟨⟨InsertReach.complete (InsertReach.addNode 1 (some 7) (InsertReach.built rfl) rfl) rfl,
      by decide⟩, by decide,
    insertAction_keys_kept ⟨[[5, 3, 9]], []⟩ ⟨[[5, 3, 9], [5, 3, 9]], [[none, some 7, none]]⟩
      ⟨0, 0, 3⟩ ⟨⟨1, 0, 3⟩, ⟨0⟩, ⟨0, 0, 3⟩⟩
      (InsertReach.complete (InsertReach.addNode 1 (some 7) (InsertReach.built rfl) rfl) rfl)
      (by decide)⟩

/-- C14: in every state an insertAction built by `newInsertAction(K)` goes
through, `nodes()` and `keys()` both have length `len(K)`, as slice headers
and as the sequences read through them: one node slot per key. -/
theorem insertAction_index_aligned [Inhabited κ] (h0 h : Heap κ ν) (K : Slice)
    (ia : insertAction) (hr : InsertReach h0 K h ia) :
    ia.nodes.len = K.len ∧ ia.keys.len = K.len ∧ ia.nodes.len = ia.keys.len ∧
    (h.nodes.read ia.nodes).length = K.len ∧ (h.keys.read ia.keys).length = K.len := by
  obtain ⟨hv, hlen⟩ := hr.ns_valid
  obtain ⟨hkeys, hres⟩ := hr.keys_kept
  have hkv : ia.result.Valid h.keys := by
    rw [hkeys, hres]
    exact Mem.make_copy_valid h0.keys K.len K default
  have h1 := Mem.length_read h.nodes ia.ns hv
  have h2 := Mem.length_read h.keys ia.result hkv
  have hrl : ia.result.len = K.len := by rw [hres]
  refine ⟨hlen, hrl, ?_, ?_, ?_⟩
  · show ia.ns.len = ia.result.len
    rw [hlen, hrl]
  · show (h.nodes.read ia.ns).length = K.len
    rw [h1, hlen]
  · show (h.keys.read ia.result).length = K.len
    rw [h2, hrl]

/-- C14 on `K = [5, 3, 9]` after `addNode(1, X)` and `complete()`. -/
theorem insertAction_index_aligned_witness :
    InsertReach (⟨[[5, 3, 9]], []⟩ : Heap Nat Nat) ⟨0, 0, 3⟩
      ⟨[[5, 3, 9], [5, 3, 9]], [[none, some 7, none]]⟩ ⟨⟨1, 0, 3⟩, ⟨0⟩, ⟨0, 0, 3⟩⟩ ∧
    ((⟨⟨1, 0, 3⟩, ⟨0⟩, ⟨0, 0, 3⟩⟩ : insertAction).nodes.len = (⟨0, 0, 3⟩ : Slice).len ∧
    (⟨⟨1, 0, 3⟩, ⟨0⟩, ⟨0, 0, 3⟩⟩ : insertAction).keys.len = (⟨0, 0, 3⟩ : Slice).len ∧
    (⟨⟨1, 0, 3⟩, ⟨0⟩, ⟨0, 0, 3⟩⟩ : insertAction).nodes.len =
      (⟨⟨1, 0, 3⟩, ⟨0⟩, ⟨0, 0, 3⟩⟩ : insertAction).keys.len ∧
    ((⟨[[5, 3, 9], [5, 3, 9]], [[none, some 7, none]]⟩ : Heap Nat Nat).nodes.read
      (⟨⟨1, 0, 3⟩, ⟨0⟩, ⟨0, 0, 3⟩⟩ : insertAction).nodes).length = (⟨0, 0, 3⟩ : Slice).len ∧
    ((⟨[[5, 3, 9], [5, 3, 9]], [[none, some 7, none]]⟩ : Heap Nat Nat).keys.read
      (⟨⟨1, 0, 3⟩, ⟨0⟩, ⟨0, 0, 3⟩⟩ : insertAction).keys).length = (⟨0, 0, 3⟩ : Slice).len) :=
  ⟨InsertReach.complete (InsertReach.addNode 1 (some 7) (InsertReach.built rfl) rfl) rfl,
    insertAction_index_aligned ⟨[[5, 3, 9]], []⟩
      ⟨[[5, 3, 9], [5, 3, 9]], [[none, some 7, none]]⟩ ⟨0, 0, 3⟩
      ⟨⟨1, 0, 3⟩, ⟨0⟩, ⟨0, 0, 3⟩⟩
      (InsertReach.complete (InsertReach.addNode 1 (some 7) (InsertReach.built rfl) rfl) rfl)⟩

/-- What a `complete` of a getAction that succeeds does to the action. -/
theorem getAction.get_complete_ok (ga ga1 : getAction) (hok : ga.complete = .ok ga1) :
    ga1.result = ga.result := by
  unfold getAction.complete at hok
  cases hd : ga.completer.Done with
  | error e =>
    rw [hd] at hok
    exact Except.noConfusion hok
  | ok wg =>
    rw [hd] at hok
    injection hok with hok
    subst hok
    rfl

/-- C15, as stated, fails: on the insertAction built from `[5, 3, 9]`,
`complete()` succeeds and a later `addNode(1, X)` also succeeds and changes
`nodes()` from `[nil, nil, nil]` to `[nil, X, nil]`. -/
theorem insertAction_addNode_after_complete_writes :
    newInsertAction (⟨[[5, 3, 9]], []⟩ : Heap Nat Nat) ⟨0, 0, 3⟩ =
      .ok (⟨[[5, 3, 9], [5, 3, 9]], [[none, none, none]]⟩, ⟨⟨1, 0, 3⟩, ⟨1⟩, ⟨0, 0, 3⟩⟩) ∧
    (⟨⟨1, 0, 3⟩, ⟨1⟩, ⟨0, 0, 3⟩⟩ : insertAction).complete =
      .ok ⟨⟨1, 0, 3⟩, ⟨0⟩, ⟨0, 0, 3⟩⟩ ∧
    insertAction.addNode (⟨[[5, 3, 9], [5, 3, 9]], [[none, none, none]]⟩ : Heap Nat Nat)
      ⟨⟨1, 0, 3⟩, ⟨0⟩, ⟨0, 0, 3⟩⟩ 1 (some 7) =
      .ok (⟨[[5, 3, 9], [5, 3, 9]], [[none, some 7, none]]⟩, ⟨⟨1, 0, 3⟩, ⟨0⟩, ⟨0, 0, 3⟩⟩) ∧
    (⟨[[5, 3, 9], [5, 3, 9]], [[none, none, none]]⟩ : Heap Nat Nat).nodes.read
      (⟨⟨1, 0, 3⟩, ⟨0⟩, ⟨0, 0, 3⟩⟩ : insertAction).nodes = [none, none, none] ∧
    (⟨[[5, 3, 9], [5, 3, 9]], [[none, some 7, none]]⟩ : Heap Nat Nat).nodes.read
      (⟨⟨1, 0, 3⟩, ⟨0⟩, ⟨0, 0, 3⟩⟩ : insertAction).nodes = [none, some 7, none] ∧
    (⟨[[5, 3, 9], [5, 3, 9]], [[none, some 7, none]]⟩ : Heap Nat Nat).nodes.read
      (⟨⟨1, 0, 3⟩, ⟨0⟩, ⟨0, 0, 3⟩⟩ : insertAction).nodes ≠
    (⟨[[5, 3, 9], [5, 3, 9]], [[none, none, none]]⟩ : Heap Nat Nat).nodes.read
      (⟨⟨1, 0, 3⟩, ⟨0⟩, ⟨0, 0, 3⟩⟩ : insertAction).nodes :=
  ⟨rfl, rfl, rfl, by decide, by decide, by decide⟩

/-- C15, amended: `complete()` itself changes neither `keys()` nor `nodes()`
(it touches the completion counter only); after it, `addNode` on a getAction
is still a no-op, and `addNode(i, n)` with `0 ≤ i < len(K)` on an insertAction
still succeeds: it leaves `keys()` and every slot `j ≠ i` of `nodes()` as
they were at completion and puts `n` in slot `i`. -/
theorem complete_does_not_freeze [Inhabited κ] (h0 h : Heap κ ν) (K : Slice)
    (ia ia1 : insertAction) (hr : InsertReach h0 K h ia) (hc : ia.complete = .ok ia1) :
    (ia1.keys = ia.keys ∧ ia1.nodes = ia.nodes) ∧
    (∀ (i : Int) (n : Option ν), 0 ≤ i → i < (K.len : Int) →
      ∃ h1, ia1.addNode h i n = .ok (h1, ia1) ∧ h1.keys = h.keys ∧
        h1.keys.read ia1.keys = h.keys.read ia.keys ∧
        (h1.nodes.read ia1.nodes).length = (h.nodes.read ia.nodes).length ∧
        (h1.nodes.read ia1.nodes)[i.toNat]? = some n ∧
        ∀ j : Nat, j ≠ i.toNat →
          (h1.nodes.read ia1.nodes)[j]? = (h.nodes.read ia.nodes)[j]?) ∧
    (∀ (ga ga1 : getAction), ga.complete = .ok ga1 →
      ga1.keys = ga.keys ∧ ga1.nodes = ga.nodes ∧
      ∀ (g : Heap κ ν) (i : Int) (n : Option ν), ga1.addNode g i n = .ok (g, ga1)) := by
  obtain ⟨hres, hns⟩ := insertAction.complete_ok ia ia1 hc
  obtain ⟨hv, hlen⟩ := (InsertReach.complete hr hc).ns_valid
  refine ⟨⟨hres, hns⟩, ?_, ?_⟩
  · intro i n hi0 hi1
    obtain ⟨h1, hok, hk, hl, hslot, hother⟩ :=
      insertAction.addNode_frame h ia1 i n hv hi0 (by rw [hlen]; exact hi1)
    have hnodes : ia1.nodes = ia.nodes := hns
    have hkeys : ia1.keys = ia.keys := hres
    refine ⟨h1, hok, hk, ?_, ?_, hslot, ?_⟩
    · rw [hk, hkeys]
    · rw [hl, hnodes]
    · intro j hj
      rw [hother j hj, hnodes]
  · intro ga ga1 hg
    exact ⟨getAction.get_complete_ok ga ga1 hg, rfl, fun _ _ _ => rfl⟩

/-- C15, amended, on the insertAction built from `[5, 3, 9]` and completed. -/
theorem complete_does_not_freeze_witness :
    (InsertReach (⟨[[5, 3, 9]], []⟩ : Heap Nat Nat) ⟨0, 0, 3⟩
      ⟨[[5, 3, 9], [5, 3, 9]], [[none, none, none]]⟩ ⟨⟨1, 0, 3⟩, ⟨1⟩, ⟨0, 0, 3⟩⟩ ∧
      (⟨⟨1, 0, 3⟩, ⟨1⟩, ⟨0, 0, 3⟩⟩ : insertAction).complete =
        .ok ⟨⟨1, 0, 3⟩, ⟨0⟩, ⟨0, 0, 3⟩⟩) ∧
    (((⟨⟨1, 0, 3⟩, ⟨0⟩, ⟨0, 0, 3⟩⟩ : insertAction).keys =
        (⟨⟨1, 0, 3⟩, ⟨1⟩, ⟨0, 0, 3⟩⟩ : insertAction).keys ∧
      (⟨⟨1, 0, 3⟩, ⟨0⟩, ⟨0, 0, 3⟩⟩ : insertAction).nodes =
        (⟨⟨1, 0, 3⟩, ⟨1⟩, ⟨0, 0, 3⟩⟩ : insertAction).nodes) ∧
    (∀ (i : Int) (n : Option Nat), 0 ≤ i → i < (((⟨0, 0, 3⟩ : Slice).len : Nat) : Int) →
      ∃ h1, insertAction.addNode
          (⟨[[5, 3, 9], [5, 3, 9]], [[none, none, none]]⟩ : Heap Nat Nat)
          ⟨⟨1, 0, 3⟩, ⟨0⟩, ⟨0, 0, 3⟩⟩ i n = .ok (h1, ⟨⟨1, 0, 3⟩, ⟨0⟩, ⟨0, 0, 3⟩⟩) ∧
        h1.keys = (⟨[[5, 3, 9], [5, 3, 9]], [[none, none, none]]⟩ : Heap Nat Nat).keys ∧
        h1.keys.read (⟨⟨1, 0, 3⟩, ⟨0⟩, ⟨0, 0, 3⟩⟩ : insertAction).keys =
          (⟨[[5, 3, 9], [5, 3, 9]], [[none, none, none]]⟩ : Heap Nat Nat).keys.read
            (⟨⟨1, 0, 3⟩, ⟨1⟩, ⟨0, 0, 3⟩⟩ : insertAction).keys ∧
        (h1.nodes.read (⟨⟨1, 0, 3⟩, ⟨0⟩, ⟨0, 0, 3⟩⟩ : insertAction).nodes).length =
          ((⟨[[5, 3, 9], [5, 3, 9]], [[none, none, none]]⟩ : Heap Nat Nat).nodes.read
            (⟨⟨1, 0, 3⟩, ⟨1⟩, ⟨0, 0, 3⟩⟩ : insertAction).nodes).length ∧
        (h1.nodes.read (⟨⟨1, 0, 3⟩, ⟨0⟩, ⟨0, 0, 3⟩⟩ : insertAction).nodes)[i.toNat]? =
          some n ∧
        ∀ j : Nat, j ≠ i.toNat →
          (h1.nodes.read (⟨⟨1, 0, 3⟩, ⟨0⟩, ⟨0, 0, 3⟩⟩ : insertAction).nodes)[j]? =
            ((⟨[[5, 3, 9], [5, 3, 9]], [[none, none, none]]⟩ : Heap Nat Nat).nodes.read
              (⟨⟨1, 0, 3⟩, ⟨1⟩, ⟨0, 0, 3⟩⟩ : insertAction).nodes)[j]?) ∧
    (∀ (ga ga1 : getAction), ga.complete = .ok ga1 →
      ga1.keys = ga.keys ∧ ga1.nodes = ga.nodes ∧
      ∀ (g : Heap Nat Nat) (i : Int) (n : Option Nat), ga1.addNode g i n = .ok (g, ga1))) :=
  ⟨⟨InsertReach.built rfl, rfl⟩,
    complete_does_not_freeze ⟨[[5, 3, 9]], []⟩ ⟨[[5, 3, 9], [5, 3, 9]], [[none, none, none]]⟩
      ⟨0, 0, 3⟩ ⟨⟨1, 0, 3⟩, ⟨1⟩, ⟨0, 0, 3⟩⟩ ⟨⟨1, 0, 3⟩, ⟨0⟩, ⟨0, 0, 3⟩⟩
      (InsertReach.built rfl) rfl⟩

/-- C16: `operation()` returns `get` on every getAction and `add` on every
insertAction, whatever the fields hold, so also in every state the action
goes through (after `addNode`, after `complete()`); as a function of the
action alone it yields a value and no new state. -/
theorem operation_fixed_per_variant :
    (∀ ga : getAction, ga.operation = operation.get) ∧
    (∀ ia : insertAction, ia.operation = operation.add) ∧
    (∀ (ga ga1 : getAction), ga.complete = .ok ga1 → ga1.operation = ga.operation) ∧
    (∀ (ia ia1 : insertAction), ia.complete = .ok ia1 → ia1.operation = ia.operation) ∧
    (∀ (h h1 : Heap κ ν) (ia ia1 : insertAction) (i : Int) (n : Option ν),
      ia.addNode h i n = .ok (h1, ia1) → ia1.operation = ia.operation) ∧
    (∀ (h h1 : Heap κ ν) (ga ga1 : getAction) (i : Int) (n : Option ν),
      ga.addNode h i n = .ok (h1, ga1) → ga1.operation = ga.operation) :=
  ⟨fun _ => rfl, fun _ => rfl, fun _ _ _ => rfl, fun _ _ _ => rfl,
    fun _ _ _ _ _ _ _ => rfl, fun _ _ _ _ _ _ _ => rfl⟩

end ActionBounds

/-! ## Theorems: index safety of the slice executor -/

section SliceSafety

variable {ι : Type}

/-- C17: `executeInterfacesInParallel` on a non-empty slice (`N < 2^62`) with
`runtime.NumCPU() = p ≥ 1`.  In every state reached under any interleaving:
nothing has panicked; the claim index is at least -1; every worker about to
read `ifs[i]` holds an `i` with `0 ≤ i < N`, so the read succeeds; every
call of `fn` made so far was at such an index; and no step that can be taken
next panics: the out-of-range branch of `ifs[i]` is never taken. -/
theorem executeInterfacesInParallel_index_in_range (ifs : List ι) (p : Int)
    (hne : ifs ≠ []) (hN : ifs.length < 2 ^ 62) (hp : 1 ≤ p) (hp63 : p < 2 ^ 63)
    (sched : List SliceLabel) (s : SliceExec ι)
    (hrun : (executeInterfacesInParallel ifs p).run sched = some s) :
    s.panic = none ∧ s.ifs = ifs ∧ -1 ≤ s.done ∧
    (∀ (w : Nat) (i : Int), s.workers[w]? = some (SlicePc.call i) →
      0 ≤ i ∧ i < (ifs.length : Int) ∧ ∃ x, indexInt s.ifs i = .ok x) ∧
    (∀ c ∈ s.calls, 0 ≤ c.1 ∧ c.1 < (ifs.length : Int)) ∧
    (∀ (l : SliceLabel) (t : SliceExec ι), s.step l = some t → t.panic = none) := by
  obtain ⟨hW, hinv⟩ := executeInterfacesInParallel_run_inv ifs p hne hN hp hp63 sched s hrun
  have hle : min (if p > 1 then p.toNat - 1 else p.toNat) ifs.length ≤ ifs.length :=
    Nat.min_le_right _ _
  obtain ⟨_, _, hcalls, _, _⟩ := SliceExec.exactly_once_of_inv ifs _ hW s hinv
  refine ⟨hinv.no_panic, hinv.ifs_eq, hinv.done_lb, ?_, ?_, ?_⟩
  · intro w i hw
    have hpos : 0 < s.workers.count (SlicePc.call i) :=
      List.count_pos_iff.mpr (List.getElem?_mem hw)
    have hrange : 0 ≤ i ∧ i ≤ s.done ∧ i < (ifs.length : Int) := by
      have := hinv.claimed i
      by_contra hn
      rw [if_neg hn] at this
      omega
    refine ⟨hrange.1, hrange.2.2, ?_⟩
    rw [hinv.ifs_eq]
    exact indexInt_ok ifs i hrange.1 hrange.2.2
  · intro c hc
    exact ⟨(hcalls c hc).1, (hcalls c hc).2.1⟩
  · intro l t hstep
    exact (SliceExec.step_inv ifs _ (by omega) s t l hinv hstep).1.no_panic

/-- C17 on three items with `runtime.NumCPU() = 3` (two workers), in the state
where the workers hold the indices 0 and 1. -/
theorem executeInterfacesInParallel_index_in_range_witness :
    ((([10, 20, 30] : List Nat) ≠ []) ∧ ([10, 20, 30] : List Nat).length < 2 ^ 62 ∧
      (1 : Int) ≤ 3 ∧ (3 : Int) < 2 ^ 63 ∧
      (executeInterfacesInParallel [10, 20, 30] 3).run [.worker 0, .worker 1] =
        some ⟨[10, 20, 30], 1, ⟨2⟩, [.call 0, .call 1], .wait, [], none⟩) ∧
    ((⟨[10, 20, 30], 1, ⟨2⟩, [.call 0, .call 1], .wait, [], none⟩ : SliceExec Nat).panic
        = none ∧
    (⟨[10, 20, 30], 1, ⟨2⟩, [.call 0, .call 1], .wait, [], none⟩ : SliceExec Nat).ifs
        = [10, 20, 30] ∧
    -1 ≤ (⟨[10, 20, 30], 1, ⟨2⟩, [.call 0, .call 1], .wait, [], none⟩ : SliceExec Nat).done ∧
    (∀ (w : Nat) (i : Int),
      (⟨[10, 20, 30], 1, ⟨2⟩, [.call 0, .call 1], .wait, [], none⟩ :
        SliceExec Nat).workers[w]? = some (SlicePc.call i) →
      0 ≤ i ∧ i < (([10, 20, 30] : List Nat).length : Int) ∧
        ∃ x, indexInt (⟨[10, 20, 30], 1, ⟨2⟩, [.call 0, .call 1], .wait, [], none⟩ :
          SliceExec Nat).ifs i = .ok x) ∧
    (∀ c ∈ (⟨[10, 20, 30], 1, ⟨2⟩, [.call 0, .call 1], .wait, [], none⟩ :
        SliceExec Nat).calls, 0 ≤ c.1 ∧ c.1 < (([10, 20, 30] : List Nat).length : Int)) ∧
    (∀ (l : SliceLabel) (t : SliceExec Nat),
      (⟨[10, 20, 30], 1, ⟨2⟩, [.call 0, .call 1], .wait, [], none⟩ : SliceExec Nat).step l
        = some t → t.panic = none)) :=
  ⟨⟨by decide, by decide, by decide, by decide, rfl⟩,
    executeInterfacesInParallel_index_in_range [10, 20, 30] 3 (by decide) (by decide)
      (by decide) (by decide) [.worker 0, .worker 1]
      ⟨[10, 20, 30], 1, ⟨2⟩, [.call 0, .call 1], .wait, [], none⟩ rfl⟩

end SliceSafety

/-! ## Theorems: the completion latch of the bounded-queue executor -/

section LatchTheorems

variable {ι : Type}

/-- How replacing the program counter of one worker changes the counts the
invariant speaks of. -/
theorem QueueExec.set_counts (workers : List (QueuePc ι)) (w : Nat) (a b : QueuePc ι)
    (hw : workers[w]? = some a) :
    ((workers.set w b).filterMap QueuePc.item).length + (QueuePc.item a).toList.length =
      (workers.filterMap QueuePc.item).length + (QueuePc.item b).toList.length ∧
    (workers.set w b).countP QueuePc.isCount + (if QueuePc.isCount a then 1 else 0) =
      workers.countP QueuePc.isCount + (if QueuePc.isCount b then 1 else 0) ∧
    (workers.set w b).countP QueuePc.isSignal + (if QueuePc.isSignal a then 1 else 0) =
      workers.countP QueuePc.isSignal + (if QueuePc.isSignal b then 1 else 0) := by
  refine ⟨?_, List.countP_set_of_getElem? _ _ w a b hw,
    List.countP_set_of_getElem? _ _ w a b hw⟩
  have := (List.filterMap_set_perm QueuePc.item workers w a b hw).length_eq
  simp only [List.length_append] at this
  omega

theorem QueueExec.latch_step_get (M : Nat) (s t : QueueExec ι) (w : Nat)
    (hinv : LatchInv M s) (hw : s.workers[w]? = some QueuePc.get)
    (hstep : s.step (QueueLabel.worker w) = some t) :
    LatchStep M s t (QueueLabel.worker w) := by
  obtain ⟨hpanic, hq, htodo, hpull, hdone, hlb, hub, hsig⟩ := hinv
  obtain ⟨rb, hrb⟩ := Option.isSome_iff_exists.mp hq
  have hpend : s.pending = rb.items := by simp only [QueueExec.pending, hrb]
  have hc := fun b => QueueExec.set_counts s.workers w _ b hw
  have hhit : s.hitsTodo (QueueLabel.worker w) = false := by
    simp only [QueueExec.hitsTodo, hw]
  have hcd : s.callsDone (QueueLabel.worker w) = false := by
    simp only [QueueExec.callsDone, hw]
  simp only [QueueExec.step, hpanic, Option.isSome_none, Bool.false_eq_true, if_false, hw,
    hrb, RingBuffer.Get] at hstep
  by_cases hd : rb.disposed = true
  · simp only [hd, if_true] at hstep
    have ht := Option.some.inj hstep
    subst ht
    obtain ⟨h1, h2, h3⟩ := hc QueuePc.exited
    simp only [QueuePc.item, QueuePc.isCount, QueuePc.isSignal, Option.toList,
      List.length_nil, Bool.false_eq_true, if_false, add_zero] at h1 h2 h3
    refine ⟨⟨rfl, rfl, htodo, ?_, ?_, hlb, hub, ?_⟩, ?_, ?_⟩
    · show s.calls.length + ((s.workers.set w QueuePc.exited).filterMap QueuePc.item).length
        + rb.items.length = M
      rw [h1, ← hpend]
      exact hpull
    · show s.done + (s.workers.set w QueuePc.exited).countP QueuePc.isCount = s.calls.length
      rw [h2]
      exact hdone
    · show (((s.workers.set w QueuePc.exited).countP QueuePc.isSignal : Nat) : Int) +
        (1 - s.wg.counter) = if s.todo ≤ s.done then 1 else 0
      rw [h3]
      exact hsig
    · rw [hhit]
      show 0 + _ = if s.todo ≤ s.done then 1 else 0
      omega
    · rw [hcd]
      show (0 : Int) + (1 - s.wg.counter) = 1 - s.wg.counter
      omega
  · simp only [hd, Bool.false_eq_true, if_false] at hstep
    cases hi : rb.items with
    | nil => simp [hi] at hstep
    | cons x rest =>
      simp only [hi] at hstep
      have ht := Option.some.inj hstep
      subst ht
      obtain ⟨h1, h2, h3⟩ := hc (QueuePc.call x)
      simp only [QueuePc.item, QueuePc.isCount, QueuePc.isSignal, Option.toList,
        List.length_nil, List.length_singleton, Bool.false_eq_true, if_false, add_zero]
        at h1 h2 h3
      refine ⟨⟨rfl, rfl, htodo, ?_, ?_, hlb, hub, ?_⟩, ?_, ?_⟩
      · show s.calls.length +
          ((s.workers.set w (QueuePc.call x)).filterMap QueuePc.item).length + rest.length = M
        rw [hpend, hi, List.length_cons] at hpull
        omega
      · show s.done + (s.workers.set w (QueuePc.call x)).countP QueuePc.isCount =
          s.calls.length
        rw [h2]
        exact hdone
      · show (((s.workers.set w (QueuePc.call x)).countP QueuePc.isSignal : Nat) : Int) +
          (1 - s.wg.counter) = if s.todo ≤ s.done then 1 else 0
        rw [h3]
        exact hsig
      · rw [hhit]
        show 0 + _ = if s.todo ≤ s.done then 1 else 0
        omega
      · rw [hcd]
        show (0 : Int) + (1 - s.wg.counter) = 1 - s.wg.counter
        omega

theorem QueueExec.latch_step_call (M : Nat) (s t : QueueExec ι) (w : Nat) (x : ι)
    (hinv : LatchInv M s) (hw : s.workers[w]? = some (QueuePc.call x))
    (hstep : s.step (QueueLabel.worker w) = some t) :
    LatchStep M s t (QueueLabel.worker w) := by
  obtain ⟨hpanic, hq, htodo, hpull, hdone, hlb, hub, hsig⟩ := hinv
  obtain ⟨h1, h2, h3⟩ := QueueExec.set_counts s.workers w _ QueuePc.count hw
  simp only [QueuePc.item, QueuePc.isCount, QueuePc.isSignal, Option.toList,
    List.length_nil, List.length_singleton, Bool.false_eq_true, if_false, if_true, add_zero]
    at h1 h2 h3
  have hhit : s.hitsTodo (QueueLabel.worker w) = false := by
    simp only [QueueExec.hitsTodo, hw]
  have hcd : s.callsDone (QueueLabel.worker w) = false := by
    simp only [QueueExec.callsDone, hw]
  simp only [QueueExec.step, hpanic, Option.isSome_none, Bool.false_eq_true, if_false, hw]
    at hstep
  have ht := Option.some.inj hstep
  subst ht
  refine ⟨⟨rfl, hq, htodo, ?_, ?_, hlb, hub, ?_⟩, ?_, ?_⟩
  · show (s.calls ++ [x]).length +
      ((s.workers.set w QueuePc.count).filterMap QueuePc.item).length + s.pending.length = M
    rw [List.length_append, List.length_singleton]
    omega
  · show s.done + (s.workers.set w QueuePc.count).countP QueuePc.isCount =
      (s.calls ++ [x]).length
    rw [List.length_append, List.length_singleton]
    omega
  · show (((s.workers.set w QueuePc.count).countP QueuePc.isSignal : Nat) : Int) +
      (1 - s.wg.counter) = if s.todo ≤ s.done then 1 else 0
    rw [h3]
    exact hsig
  · rw [hhit]
    show 0 + _ = if s.todo ≤ s.done then 1 else 0
    omega
  · rw [hcd]
    show (0 : Int) + (1 - s.wg.counter) = 1 - s.wg.counter
    omega

theorem QueueExec.latch_step_count (M : Nat) (hM : M < 2 ^ 64) (s t : QueueExec ι) (w : Nat)
    (hinv : LatchInv M s) (hw : s.workers[w]? = some QueuePc.count)
    (hstep : s.step (QueueLabel.worker w) = some t) :
    LatchStep M s t (QueueLabel.worker w) := by
  obtain ⟨hpanic, hq, htodo, hpull, hdone, hlb, hub, hsig⟩ := hinv
  have hc := fun b => QueueExec.set_counts s.workers w _ b hw
  have hpos : 0 < s.workers.countP QueuePc.isCount := by
    have := (hc QueuePc.get).2.1
    simp only [QueuePc.isCount, Bool.false_eq_true, if_false, if_true, add_zero] at this
    omega
  have hd : (s.done + 1) % 2 ^ 64 = s.done + 1 := Nat.mod_eq_of_lt (by omega)
  have hcd : s.callsDone (QueueLabel.worker w) = false := by
    simp only [QueueExec.callsDone, hw]
  have hhit : s.hitsTodo (QueueLabel.worker w) = decide (s.done + 1 = s.todo) := by
    simp only [QueueExec.hitsTodo, hw, hd]
  simp only [QueueExec.step, hpanic, Option.isSome_none, Bool.false_eq_true, if_false, hw,
    hd] at hstep
  split_ifs at hstep with heq
  · have ht := Option.some.inj hstep
    subst ht
    obtain ⟨h1, h2, h3⟩ := hc QueuePc.signal
    simp only [QueuePc.item, QueuePc.isCount, QueuePc.isSignal, Option.toList,
      List.length_nil, Bool.false_eq_true, if_false, if_true, add_zero] at h1 h2 h3
    have hlt : ¬ s.todo ≤ s.done := by omega
    rw [if_neg hlt] at hsig
    refine ⟨⟨rfl, hq, htodo, ?_, ?_, hlb, hub, ?_⟩, ?_, ?_⟩
    · show s.calls.length + ((s.workers.set w QueuePc.signal).filterMap QueuePc.item).length
        + s.pending.length = M
      rw [h1]
      exact hpull
    · show s.done + 1 + (s.workers.set w QueuePc.signal).countP QueuePc.isCount =
        s.calls.length
      omega
    · show (((s.workers.set w QueuePc.signal).countP QueuePc.isSignal : Nat) : Int) +
        (1 - s.wg.counter) = if s.todo ≤ s.done + 1 then 1 else 0
      rw [if_pos (by omega), h3]
      push_cast
      omega
    · rw [hhit, decide_eq_true heq, if_pos rfl, if_neg hlt]
      show 1 + 0 = if s.todo ≤ s.done + 1 then 1 else 0
      rw [if_pos (by omega)]
    · rw [hcd]
      show (0 : Int) + (1 - s.wg.counter) = 1 - s.wg.counter
      omega
  · have ht := Option.some.inj hstep
    subst ht
    obtain ⟨h1, h2, h3⟩ := hc QueuePc.get
    simp only [QueuePc.item, QueuePc.isCount, QueuePc.isSignal, Option.toList,
      List.length_nil, Bool.false_eq_true, if_false, if_true, add_zero] at h1 h2 h3
    have hiff : (s.todo ≤ s.done + 1) ↔ (s.todo ≤ s.done) := by
      constructor <;> intro h <;> omega
    refine ⟨⟨rfl, hq, htodo, ?_, ?_, hlb, hub, ?_⟩, ?_, ?_⟩
    · show s.calls.length + ((s.workers.set w QueuePc.get).filterMap QueuePc.item).length
        + s.pending.length = M
      rw [h1]
      exact hpull
    · show s.done + 1 + (s.workers.set w QueuePc.get).countP QueuePc.isCount =
        s.calls.length
      omega
    · show (((s.workers.set w QueuePc.get).countP QueuePc.isSignal : Nat) : Int) +
        (1 - s.wg.counter) = if s.todo ≤ s.done + 1 then 1 else 0
      rw [h3, hsig]
      simp only [hiff]
    · rw [hhit, decide_eq_false heq]
      show (if false = true then 1 else 0) + _ = if s.todo ≤ s.done + 1 then 1 else 0
      simp only [hiff, Bool.false_eq_true, if_false, Nat.zero_add]
    · rw [hcd]
      show (0 : Int) + (1 - s.wg.counter) = 1 - s.wg.counter
      omega

theorem QueueExec.latch_step_signal (M : Nat) (s t : QueueExec ι) (w : Nat)
    (hinv : LatchInv M s) (hw : s.workers[w]? = some QueuePc.signal)
    (hstep : s.step (QueueLabel.worker w) = some t) :
    LatchStep M s t (QueueLabel.worker w) := by
  obtain ⟨hpanic, hq, htodo, hpull, hdone, hlb, hub, hsig⟩ := hinv
  obtain ⟨h1, h2, h3⟩ := QueueExec.set_counts s.workers w _ QueuePc.exited hw
  simp only [QueuePc.item, QueuePc.isCount, QueuePc.isSignal, Option.toList,
    List.length_nil, Bool.false_eq_true, if_false, if_true, add_zero] at h1 h2 h3
  have hone : s.wg.counter = 1 := by
    split_ifs at hsig <;> omega
  have hdn : s.wg.Done = .ok ⟨s.wg.counter + -1⟩ := by
    unfold WaitGroup.Done WaitGroup.Add
    rw [if_neg (by omega)]
  have hhit : s.hitsTodo (QueueLabel.worker w) = false := by
    simp only [QueueExec.hitsTodo, hw]
  have hcd : s.callsDone (QueueLabel.worker w) = true := by
    simp only [QueueExec.callsDone, hw]
  simp only [QueueExec.step, hpanic, Option.isSome_none, Bool.false_eq_true, if_false, hw,
    hdn] at hstep
  have ht := Option.some.inj hstep
  subst ht
  refine ⟨⟨rfl, hq, htodo, ?_, ?_, ?_, ?_, ?_⟩, ?_, ?_⟩
  · show s.calls.length + ((s.workers.set w QueuePc.exited).filterMap QueuePc.item).length
      + s.pending.length = M
    rw [h1]
    exact hpull
  · show s.done + (s.workers.set w QueuePc.exited).countP QueuePc.isCount = s.calls.length
    rw [h2]
    exact hdone
  · show 0 ≤ s.wg.counter + -1
    omega
  · show s.wg.counter + -1 ≤ 1
    omega
  · show (((s.workers.set w QueuePc.exited).countP QueuePc.isSignal : Nat) : Int) +
      (1 - (s.wg.counter + -1)) = if s.todo ≤ s.done then 1 else 0
    rw [← hsig]
    omega
  · rw [hhit]
    show 0 + _ = if s.todo ≤ s.done then 1 else 0
    omega
  · rw [hcd]
    show (if true = true then (1 : Int) else 0) + (1 - s.wg.counter) =
      1 - (s.wg.counter + -1)
    rw [if_pos rfl]
    omega

theorem QueueExec.latch_step_other (M : Nat) (s t : QueueExec ι) (l : QueueLabel)
    (hl : ∀ w, l ≠ QueueLabel.worker w)
    (hinv : LatchInv M s) (hstep : s.step l = some t) :
    LatchStep M s t l := by
  obtain ⟨hpanic, hq, htodo, hpull, hdone, hlb, hub, hsig⟩ := hinv
  obtain ⟨rb, hrb⟩ := Option.isSome_iff_exists.mp hq
  have hpend : s.pending = rb.items := by simp only [QueueExec.pending, hrb]
  cases l with
  | worker w => exact absurd rfl (hl w)
  | getError w =>
    simp only [QueueExec.step, hpanic, Option.isSome_none, Bool.false_eq_true, if_false]
      at hstep
    cases hw : s.workers[w]? with
    | none => simp [hw] at hstep
    | some pc =>
      cases pc with
      | get =>
        simp only [hw] at hstep
        have ht := Option.some.inj hstep
        subst ht
        obtain ⟨h1, h2, h3⟩ := QueueExec.set_counts s.workers w _ QueuePc.exited hw
        simp only [QueuePc.item, QueuePc.isCount, QueuePc.isSignal, Option.toList,
          List.length_nil, Bool.false_eq_true, if_false, add_zero] at h1 h2 h3
        refine ⟨⟨rfl, hq, htodo, ?_, ?_, hlb, hub, ?_⟩, ?_, ?_⟩
        · show s.calls.length +
            ((s.workers.set w QueuePc.exited).filterMap QueuePc.item).length +
            s.pending.length = M
          rw [h1]
          exact hpull
        · show s.done + (s.workers.set w QueuePc.exited).countP QueuePc.isCount =
            s.calls.length
          rw [h2]
          exact hdone
        · show (((s.workers.set w QueuePc.exited).countP QueuePc.isSignal : Nat) : Int) +
            (1 - s.wg.counter) = if s.todo ≤ s.done then 1 else 0
          rw [h3]
          exact hsig
        · show 0 + _ = if s.todo ≤ s.done then 1 else 0
          omega
        · show (0 : Int) + (1 - s.wg.counter) = 1 - s.wg.counter
          omega
      | call x => simp [hw] at hstep
      | count => simp [hw] at hstep
      | signal => simp [hw] at hstep
      | exited => simp [hw] at hstep
  | otherDispose =>
    simp only [QueueExec.step, hrb] at hstep
    have ht := Option.some.inj hstep
    subst ht
    refine ⟨⟨hpanic, rfl, htodo, ?_, hdone, hlb, hub, hsig⟩, ?_, ?_⟩
    · show s.calls.length + (s.workers.filterMap QueuePc.item).length + rb.items.length = M
      rw [← hpend]
      exact hpull
    · show 0 + _ = if s.todo ≤ s.done then 1 else 0
      omega
    · show (0 : Int) + (1 - s.wg.counter) = 1 - s.wg.counter
      omega
  | main =>
    simp only [QueueExec.step, hpanic, Option.isSome_none, Bool.false_eq_true, if_false]
      at hstep
    cases hm : s.main with
    | returned => simp [hm] at hstep
    | wait =>
      simp only [hm] at hstep
      split_ifs at hstep with hrel
      have ht := Option.some.inj hstep
      subst ht
      refine ⟨⟨rfl, hq, htodo, hpull, hdone, hlb, hub, hsig⟩, ?_, ?_⟩
      · show 0 + _ = if s.todo ≤ s.done then 1 else 0
        omega
      · show (0 : Int) + (1 - s.wg.counter) = 1 - s.wg.counter
        omega
    | dispose =>
      simp only [hm, hrb] at hstep
      have ht := Option.some.inj hstep
      subst ht
      refine ⟨⟨rfl, rfl, htodo, ?_, hdone, hlb, hub, hsig⟩, ?_, ?_⟩
      · show s.calls.length + (s.workers.filterMap QueuePc.item).length + rb.items.length
          = M
        rw [← hpend]
        exact hpull
      · show 0 + _ = if s.todo ≤ s.done then 1 else 0
        omega
      · show (0 : Int) + (1 - s.wg.counter) = 1 - s.wg.counter
        omega

/-- Every step keeps the latch invariant and its account of the steps counted. -/
theorem QueueExec.latch_step (M : Nat) (hM : M < 2 ^ 64) (s t : QueueExec ι)
    (l : QueueLabel) (hinv : LatchInv M s) (hstep : s.step l = some t) :
    LatchStep M s t l := by
  cases l with
  | main =>
    exact QueueExec.latch_step_other M s t _ (fun w h => QueueLabel.noConfusion h) hinv hstep
  | getError v =>
    exact QueueExec.latch_step_other M s t _ (fun w h => QueueLabel.noConfusion h) hinv hstep
  | otherDispose =>
    exact QueueExec.latch_step_other M s t _ (fun w h => QueueLabel.noConfusion h) hinv hstep
  | worker w =>
    cases hw : s.workers[w]? with
    | none =>
      exfalso
      simp [QueueExec.step, hinv.no_panic, hw] at hstep
    | some pc =>
      cases pc with
      | get => exact QueueExec.latch_step_get M s t w hinv hw hstep
      | call x => exact QueueExec.latch_step_call M s t w x hinv hw hstep
      | count => exact QueueExec.latch_step_count M hM s t w hinv hw hstep
      | signal => exact QueueExec.latch_step_signal M s t w hinv hw hstep
      | exited =>
        exfalso
        simp [QueueExec.step, hinv.no_panic, hw] at hstep

theorem QueueExec.latch_spawn (items : List ι) (d : Bool) (todo W : Nat) (htodo : 1 ≤ todo) :
    LatchInv items.length (QueueExec.spawn ⟨items, d⟩ todo 0 ⟨1⟩ W) := by
  have hfm : (List.replicate W (QueuePc.get : QueuePc ι)).filterMap QueuePc.item = [] :=
    List.filterMap_replicate_of_none rfl
  have hcnt : (List.replicate W (QueuePc.get : QueuePc ι)).countP QueuePc.isCount = 0 := by
    rw [List.countP_replicate]
    rfl
  have hsig : (List.replicate W (QueuePc.get : QueuePc ι)).countP QueuePc.isSignal = 0 := by
    rw [List.countP_replicate]
    rfl
  refine ⟨rfl, rfl, htodo, ?_, ?_, ?_, ?_, ?_⟩
  · show ([] : List ι).length +
      ((List.replicate W (QueuePc.get : QueuePc ι)).filterMap QueuePc.item).length +
      items.length = items.length
    rw [hfm]
    simp
  · show 0 + (List.replicate W (QueuePc.get : QueuePc ι)).countP QueuePc.isCount = 0
    omega
  · show (0 : Int) ≤ 1
    omega
  · show (1 : Int) ≤ 1
    omega
  · show (((List.replicate W (QueuePc.get : QueuePc ι)).countP QueuePc.isSignal : Nat) : Int)
      + (1 - 1) = if todo ≤ 0 then 1 else 0
    rw [if_neg (by omega), hsig]
    rfl

/-- Along every schedule: the invariant is kept, the number of increments that
returned `todo` is the change of the `todo ≤ done` flag, and the number of
`wg.Done()` calls is the drop of the wait-group counter. -/
theorem QueueExec.latch_run (M : Nat) (hM : M < 2 ^ 64) (sched : List QueueLabel) :
    ∀ s t : QueueExec ι, LatchInv M s → s.run sched = some t →
      LatchInv M t ∧
      (QueueExec.countAlong QueueExec.hitsTodo s sched + (if s.todo ≤ s.done then 1 else 0) =
        if t.todo ≤ t.done then 1 else 0) ∧
      ((QueueExec.countAlong QueueExec.callsDone s sched : Int) + (1 - s.wg.counter) =
        1 - t.wg.counter) := by
  induction sched with
  | nil =>
    intro s t hinv hrun
    have := Option.some.inj hrun
    subst this
    refine ⟨hinv, ?_, ?_⟩
    · simp only [QueueExec.countAlong]
      omega
    · simp only [QueueExec.countAlong]
      omega
  | cons l ls ih =>
    intro s t hinv hrun
    simp only [QueueExec.run] at hrun
    cases hstep : s.step l with
    | none => simp [hstep] at hrun
    | some u =>
      rw [hstep] at hrun
      obtain ⟨hu, hh, hd⟩ := QueueExec.latch_step M hM s u l hinv hstep
      obtain ⟨ht, hh2, hd2⟩ := ih u t hu hrun
      refine ⟨ht, ?_, ?_⟩
      · simp only [QueueExec.countAlong, hstep]
        omega
      · simp only [QueueExec.countAlong, hstep]
        push_cast
        split_ifs at hd ⊢ <;> omega

/-- C18: the queue executor started with `todo ≥ 1`, the completion count at 0,
the wait group at 1, any number `W` of workers and any queue content (fewer
than `2^64` items, as many as `todo` or not).  Along every schedule, pull
errors and disposal by others included: nothing panics, so the wait-group
counter never goes negative; at most one `atomic.AddUint64(&done, 1)` returns
`todo`, and one has exactly when `done` has reached `todo`; `wg.Done()` is
called at most once, only after such an increment, and the counter is 1 minus
the number of these calls; if it has been called, at least `todo` items have
been pulled and passed to `fn`; and once no worker has a count or a signal
left to deliver, it has been called exactly when at least `todo` items have
been pulled and passed to `fn`. -/
theorem executeInParallel_latch_released_once (items : List ι) (d : Bool) (todo W : Nat)
    (htodo : 1 ≤ todo) (hM : items.length < 2 ^ 64) (sched : List QueueLabel)
    (s : QueueExec ι)
    (hrun : (QueueExec.spawn ⟨items, d⟩ todo 0 ⟨1⟩ W).run sched = some s) :
    s.panic = none ∧ 0 ≤ s.wg.counter ∧
    QueueExec.countAlong QueueExec.hitsTodo
      (QueueExec.spawn ⟨items, d⟩ todo 0 ⟨1⟩ W) sched ≤ 1 ∧
    (QueueExec.countAlong QueueExec.hitsTodo
      (QueueExec.spawn ⟨items, d⟩ todo 0 ⟨1⟩ W) sched = 1 ↔ todo ≤ s.done) ∧
    QueueExec.countAlong QueueExec.callsDone
      (QueueExec.spawn ⟨items, d⟩ todo 0 ⟨1⟩ W) sched ≤
      QueueExec.countAlong QueueExec.hitsTodo
        (QueueExec.spawn ⟨items, d⟩ todo 0 ⟨1⟩ W) sched ∧
    s.wg.counter = 1 - (QueueExec.countAlong QueueExec.callsDone
      (QueueExec.spawn ⟨items, d⟩ todo 0 ⟨1⟩ W) sched : Int) ∧
    (QueueExec.countAlong QueueExec.callsDone
      (QueueExec.spawn ⟨items, d⟩ todo 0 ⟨1⟩ W) sched = 1 → todo ≤ s.calls.length) ∧
    (s.workers.countP QueuePc.isCount = 0 → s.workers.countP QueuePc.isSignal = 0 →
      (QueueExec.countAlong QueueExec.callsDone
        (QueueExec.spawn ⟨items, d⟩ todo 0 ⟨1⟩ W) sched = 1 ↔ todo ≤ s.calls.length)) := by
  obtain ⟨hinv, hh, hd⟩ := QueueExec.latch_run items.length hM sched _ s
    (QueueExec.latch_spawn items d todo W htodo) hrun
  obtain ⟨hpanic, hq, htp, hpull, hdone, hlb, hub, hsig⟩ := hinv
  have ht : s.todo = todo := by
    have : ∀ (sched : List QueueLabel) (a b : QueueExec ι), a.run sched = some b →
        b.todo = a.todo := by
      intro sched
      induction sched with
      | nil =>
        intro a b h
        have := Option.some.inj h
        subst this
        rfl
      | cons l ls ih =>
        intro a b h
        simp only [QueueExec.run] at h
        cases hstep : a.step l with
        | none => simp [hstep] at h
        | some u =>
          rw [hstep] at h
          rw [ih u b h]
          cases l with
          | worker w =>
            simp only [QueueExec.step] at hstep
            split at hstep
            · exact Option.noConfusion hstep
            · split at hstep
              · exact Option.noConfusion hstep
              · split at hstep
                · have := Option.some.inj hstep
                  subst this
                  rfl
                · split at hstep
                  · exact Option.noConfusion hstep
                  · have := Option.some.inj hstep
                    subst this
                    rfl
                  · have := Option.some.inj hstep
                    subst this
                    rfl
              · have := Option.some.inj hstep
                subst this
                rfl
              · split at hstep <;>
                · have := Option.some.inj hstep
                  subst this
                  rfl
              · split at hstep <;>
                · have := Option.some.inj hstep
                  subst this
                  rfl
              · exact Option.noConfusion hstep
          | getError w =>
            simp only [QueueExec.step] at hstep
            split at hstep
            · exact Option.noConfusion hstep
            · split at hstep
              · have := Option.some.inj hstep
                subst this
                rfl
              · exact Option.noConfusion hstep
          | main =>
            simp only [QueueExec.step] at hstep
            split at hstep
            · exact Option.noConfusion hstep
            · split at hstep
              · split at hstep
                · have := Option.some.inj hstep
                  subst this
                  rfl
                · exact Option.noConfusion hstep
              · split at hstep <;>
                · have := Option.some.inj hstep
                  subst this
                  rfl
              · exact Option.noConfusion hstep
          | otherDispose =>
            simp only [QueueExec.step] at hstep
            split at hstep
            · exact Option.noConfusion hstep
            · have := Option.some.inj hstep
              subst this
              rfl
    exact this sched _ s hrun
  rw [ht] at hh hsig
  have h0 : (QueueExec.spawn ⟨items, d⟩ todo 0 ⟨1⟩ W).todo = todo := rfl
  have h1 : (QueueExec.spawn ⟨items, d⟩ todo 0 ⟨1⟩ W).done = 0 := rfl
  have h2 : (QueueExec.spawn ⟨items, d⟩ todo 0 ⟨1⟩ W).wg.counter = 1 := rfl
  rw [h0, h1, if_neg (by omega)] at hh
  rw [h2] at hd
  generalize QueueExec.countAlong QueueExec.hitsTodo
    (QueueExec.spawn ⟨items, d⟩ todo 0 ⟨1⟩ W) sched = hits at hh ⊢
  generalize QueueExec.countAlong QueueExec.callsDone
    (QueueExec.spawn ⟨items, d⟩ todo 0 ⟨1⟩ W) sched = dones at hd ⊢
  refine ⟨hpanic, hlb, ?_, ?_, ?_, ?_, ?_, ?_⟩
  · split_ifs at hh <;> omega
  · split_ifs at hh with h <;> constructor <;> intro h' <;> omega
  · split_ifs at hh hsig <;> omega
  · omega
  · intro hd1
    split_ifs at hsig <;> omega
  · intro hc hs
    rw [hs] at hsig
    split_ifs at hsig with h <;> constructor <;> intro h' <;> omega

/-- C18 on a queue of three items with `todo = 2` and two workers: worker 1's
increment returns 2 and it calls `wg.Done()`; worker 0 then processes the third
item, its increment returns 3 and nothing is signalled again. -/
theorem executeInParallel_latch_released_once_witness :
    let init : QueueExec Nat := QueueExec.spawn ⟨[10, 20, 30], false⟩ 2 0 ⟨1⟩ 2
    let sched : List QueueLabel :=
      [.worker 0, .worker 1, .worker 0, .worker 1, .worker 0, .worker 1, .worker 1,
        .worker 0, .worker 0, .worker 0]
    let s : QueueExec Nat :=
      ⟨some ⟨[], false⟩, 2, 3, ⟨0⟩, [.get, .exited], .wait, [10, 20, 30], none⟩
    (1 ≤ 2 ∧ ([10, 20, 30] : List Nat).length < 2 ^ 64 ∧ init.run sched = some s) ∧
    (QueueExec.countAlong QueueExec.hitsTodo init sched = 1 ∧
      QueueExec.countAlong QueueExec.callsDone init sched = 1) ∧
    (s.panic = none ∧ 0 ≤ s.wg.counter ∧
    QueueExec.countAlong QueueExec.hitsTodo init sched ≤ 1 ∧
    (QueueExec.countAlong QueueExec.hitsTodo init sched = 1 ↔ 2 ≤ s.done) ∧
    QueueExec.countAlong QueueExec.callsDone init sched ≤
      QueueExec.countAlong QueueExec.hitsTodo init sched ∧
    s.wg.counter = 1 - (QueueExec.countAlong QueueExec.callsDone init sched : Int) ∧
    (QueueExec.countAlong QueueExec.callsDone init sched = 1 → 2 ≤ s.calls.length) ∧
    (s.workers.countP QueuePc.isCount = 0 → s.workers.countP QueuePc.isSignal = 0 →
      (QueueExec.countAlong QueueExec.callsDone init sched = 1 ↔ 2 ≤ s.calls.length))) :=
  ⟨⟨by decide, by decide, rfl⟩, ⟨by decide, by decide⟩,
    executeInParallel_latch_released_once [10, 20, 30] false 2 2 (by decide) (by decide)
      [.worker 0, .worker 1, .worker 0, .worker 1, .worker 0, .worker 1, .worker 1,
        .worker 0, .worker 0, .worker 0]
      ⟨some ⟨[], false⟩, 2, 3, ⟨0⟩, [.get, .exited], .wait, [10, 20, 30], none⟩ rfl⟩

end LatchTheorems

end Palm
